import Mathlib

/-! Key-Value-Server: the hash table, the dispatcher and the ring.

A shallow embedding of the open-addressed hash table of `src/kv_store.c`
(`init_server`, `get`, `insert`, `migrateTable`) in its sequential model:
operations run one at a time, and the migration workers started by a grow run
one after another, in an arbitrary order.  The same file embeds one iteration
of `server_thread`, the option loop of `parse_args`, the two ring functions of
`src/ring_buffer.c` in a sequential run, and a step model of a `get` that runs
while the migration leader installs the new array.

Conventions of the embedding.

* A slot of the backing array (`Pair *`) is an `Option Pair`: `none` is the
  `NULL` pointer, `some p` a pointer to the immutable entry `p`.  Entries are
  never written after their allocation, so a pointer is identified with the
  entry it points to.
* Keys and values are 32-bit words; the table code only copies and compares
  them, so they are carried as natural numbers.
* `size`, `capacity` and loop indices are C `int`s.  They are natural numbers
  here, and the one place where the source can leave the `int` range, the
  doubling `2 * capacity` of a grow, is a failure (`none`) of the model.
* Every `while (1)` probe loop takes a fuel equal to the length of the array it
  walks.  The walk is cyclic and, in a sequential run, nobody else writes the
  array, so a loop that has not returned after that many iterations never
  returns; `none` stands for that (and for an out-of-bounds access).
* Memory allocation is assumed to succeed.
-/

namespace KVStore

/-- The entry type `Pair` of the source, `struct pair { int key; int val; }`. -/
structure Pair where
  key : Nat
  val : Nat
deriving DecidableEq

/-- The record `MigratorArgs` handed to a migration worker; `stop` is the field
`end` of the source (a reserved word here). -/
structure MigratorArgs where
  start : Nat
  stop : Nat
  new_cap : Nat
deriving DecidableEq

/-- The record `HashTable` of the source: backing array, `size`, `capacity`. -/
structure HashTable where
  table : List (Option Pair)
  size : Nat
  capacity : Nat
deriving DecidableEq

/-- The globals of `kv_store.c` that the table operations read or write:
`*table`, the flag `isMigration` and the worker count `mt_count`.  (The global
`new_table` is overwritten at the start of every grow before it is read.) -/
structure Server where
  table : HashTable
  isMigration : Bool
  mt_count : Nat
deriving DecidableEq

/-- Return code `SUCCESS` of the source. -/
def SUCCESS : Nat := 10

/-- Return code `FAILURE` of the source; also what `get` returns for an absent key. -/
def FAILURE : Nat := 0

/-- Largest value of a 32-bit C `int`. -/
def INT_MAX : Nat := 2147483647

/-- Modelled from the spec: `hash_function` is declared in `common.h`, which is
not among the sources; the spec fixes it as a pure function
`h(key, capacity)` with values in `[0, capacity)`. -/
structure Hash where
  fn : Nat → Nat → Nat
  lt : ∀ k c, 0 < c → fn k c < c

/-- The hash `key % capacity`, used to evaluate the model on concrete inputs. -/
def modHash : Hash := ⟨fun k c => k % c, fun k _ hc => Nat.mod_lt k hc⟩

/-- The test `l_table->size > l_table->capacity * LOAD_FACTOR` with
`LOAD_FACTOR = 0.5`.  Both sides are exact in double precision for 32-bit
integers, so the test is `2 * size > capacity`. -/
def over_load (size capacity : Nat) : Bool := decide (capacity < 2 * size)

/-- The table set-up of `init_server`: the capacity is raised to the number of
threads, the backing array is zeroed by `memset`, and `mt_count = st_count`. -/
def init_server (st_count cap : Nat) : Server :=
  let cap := if st_count > cap then st_count else cap
  { table := { table := List.replicate cap none, size := 0, capacity := cap },
    isMigration := false,
    mt_count := st_count }

/-- The probe loop of `get` (lines 119-130). -/
def get_loop (tbl : List (Option Pair)) (capacity key : Nat) : Nat → Nat → Option Nat
  | 0, _ => none
  | fuel + 1, i =>
    match tbl[i % capacity]? with
    | none => none
    | some none => some FAILURE
    | some (some curr) =>
      if curr.key = key then some curr.val
      else get_loop tbl capacity key fuel (i % capacity + 1)

/-- The function `get` of the source.  It writes no shared state: the
compare-exchange of its `do ... while` is never reached, since the inner loop
only leaves by `return`.  With a capacity of 0 the source's `i % capacity` is
undefined, which is a failure here. -/
def get (H : Hash) (s : Server) (key : Nat) : Option Nat :=
  if s.table.capacity = 0 then none
  else get_loop s.table.table s.table.capacity key s.table.capacity
    (H.fn key s.table.capacity)

/-- The probe loop of `insert` (lines 159-193), run with `isMigration` clear.
`some none` is the `return FAILURE` on a duplicate key; `some (some t)` is the
`break`, with the entry published and `size` incremented. -/
def insert_loop (l_table : HashTable) (key : Nat) (newPair : Pair) :
    Nat → Nat → Option (Option HashTable)
  | 0, _ => none
  | fuel + 1, i =>
    match l_table.table[i % l_table.capacity]? with
    | none => none
    | some none =>
      some (some { l_table with
        table := l_table.table.set (i % l_table.capacity) (some newPair),
        size := l_table.size + 1 })
    | some (some curr) =>
      if curr.key = key then some none
      else insert_loop l_table key newPair fuel (i % l_table.capacity + 1)

/-- The inner `while (1)` of `migrateTable` (lines 91-108): the entry goes to
the first empty slot of the new array, no key is compared. -/
def migrate_loop (new_table : List (Option Pair)) (new_cap : Nat) (entry : Pair) :
    Nat → Nat → Option (List (Option Pair))
  | 0, _ => none
  | fuel + 1, new_i =>
    match new_table[new_i % new_cap]? with
    | none => none
    | some none => some (new_table.set (new_i % new_cap) (some entry))
    | some (some _) => migrate_loop new_table new_cap entry fuel (new_i % new_cap + 1)

/-- The `for` loop of `migrateTable` (lines 85-109), with `n` iterations left
and loop variable `i`. -/
def migrate_for (H : Hash) (old : List (Option Pair)) (new_cap : Nat) :
    Nat → Nat → List (Option Pair) → Option (List (Option Pair))
  | 0, _, new_table => some new_table
  | n + 1, i, new_table =>
    match old[i]? with
    | none => none
    | some none => migrate_for H old new_cap n (i + 1) new_table
    | some (some curr) =>
      match migrate_loop new_table new_cap curr new_cap (H.fn curr.key new_cap) with
      | none => none
      | some nt => migrate_for H old new_cap n (i + 1) nt

/-- The worker `migrateTable`: it re-homes the entries of the slots
`start .. end - 1` of the old array into `new_table`.  (`new_i % new_cap` is
undefined for `new_cap = 0`.) -/
def migrateTable (H : Hash) (table : HashTable) (args : MigratorArgs)
    (new_table : List (Option Pair)) : Option (List (Option Pair)) :=
  if args.new_cap = 0 then none
  else migrate_for H table.table args.new_cap (args.stop - args.start) args.start new_table

/-- The arguments the leader computes for worker `i` (lines 206-212). -/
def migrator_args (l_table : HashTable) (mt_count i : Nat) : MigratorArgs :=
  let b_size := l_table.capacity / mt_count
  { start := i * b_size,
    stop := if i = mt_count - 1 then l_table.capacity else (i + 1) * b_size,
    new_cap := 2 * l_table.capacity }

/-- The migration workers, run one after another in the order `order`. -/
def run_migrators (H : Hash) (table : HashTable) (mt_count : Nat) :
    List Nat → List (Option Pair) → Option (List (Option Pair))
  | [], new_table => some new_table
  | i :: rest, new_table =>
    match migrateTable H table (migrator_args table mt_count i) new_table with
    | none => none
    | some nt => run_migrators H table mt_count rest nt

/-- The block of memory `Malloc` returns for the new array: `n` slots whose
content is whatever the memory held, `garbage`. -/
def malloc_slots (garbage : Nat → Option Pair) (n : Nat) : List (Option Pair) :=
  (List.range n).map garbage

/-- The leader's part of `insert` (lines 201-232): allocate the new array,
start the workers and wait for them, install the new array and the doubled
capacity, clear `isMigration`.  `mt_count = 0` is a division by zero and
`2 * capacity > INT_MAX` a signed overflow. -/
def grow (H : Hash) (garbage : Nat → Option Pair) (order : List Nat) (s : Server) :
    Option Server :=
  if s.mt_count = 0 then none
  else if 2 * s.table.capacity > INT_MAX then none
  else
    match run_migrators H s.table s.mt_count order
        (malloc_slots garbage (2 * s.table.capacity)) with
    | none => none
    | some nt =>
      some { s with
        table := { table := nt, size := s.table.size, capacity := 2 * s.table.capacity },
        isMigration := false }

/-- The function `insert` of the source, in a sequential run.  With
`isMigration` set the caller waits on the condition variable, which nobody
signals, so it does not return; with a capacity of 0 its `i % capacity` is
undefined.  After the probe loop `isMigration` is still clear, so the load
test of line 199 decides whether the caller becomes the migration leader. -/
def insert (H : Hash) (garbage : Nat → Option Pair) (order : List Nat) (s : Server)
    (key val : Nat) : Option (Nat × Server) :=
  if s.isMigration then none
  else if s.table.capacity = 0 then none
  else
    match insert_loop s.table key ⟨key, val⟩ s.table.capacity
        (H.fn key s.table.capacity) with
    | none => none
    | some none => some (FAILURE, s)
    | some (some l_table) =>
      if over_load l_table.size l_table.capacity then
        match grow H garbage order { s with table := l_table } with
        | none => none
        | some s2 => some (SUCCESS, s2)
      else some (SUCCESS, { s with table := l_table })

/-- Freshly allocated memory that happens to be all `NULL`. -/
def zeroed : Nat → Option Pair := fun _ => none

/-- The entries held by a backing array, in slot order. -/
def entries (tbl : List (Option Pair)) : List Pair := tbl.filterMap id

/-- The keys held by a backing array. -/
def keys (tbl : List (Option Pair)) : List Nat := (entries tbl).map Pair.key

/-- The states of a sequential run with their history: `Trace H log s` says
that `s` is reached from a table set up by `init_server` (with at least one
thread and a positive capacity, both C `int`s) by completed calls of `insert`
and `get`, where `log` lists the calls `insert(k, v)` in their order, every
grow starts from an all-empty new array and runs its workers in some order.
A call of `get` leaves the state as it is. -/
inductive Trace (H : Hash) : List (Nat × Nat) → Server → Prop
  | init (st_count cap : Nat) (hn : 0 < st_count) (hs : 0 < cap)
      (hn_int : st_count ≤ INT_MAX) (hs_int : cap ≤ INT_MAX) :
      Trace H [] (init_server st_count cap)
  | insert {log : List (Nat × Nat)} {s : Server} (k v : Nat) (order : List Nat)
      (r : Nat) (s2 : Server) (hs : Trace H log s)
      (horder : order.Perm (List.range s.mt_count))
      (hcall : insert H zeroed order s k v = some (r, s2)) :
      Trace H (log ++ [(k, v)]) s2
  | lookup {log : List (Nat × Nat)} {s : Server} (k r : Nat) (hs : Trace H log s)
      (hcall : get H s k = some r) :
      Trace H log s

/-- A table state reachable in the sequential model. -/
def Reachable (H : Hash) (s : Server) : Prop := ∃ log, Trace H log s

/-! ## Predicates of the verification and concrete states -/

/-- The slots at distances `0 .. d - 1` from `i` on the cyclic walk are occupied. -/
def Occ (tbl : List (Option Pair)) (c i d : Nat) : Prop :=
  ∀ e, e < d → ∃ p, tbl[(i + e) % c]? = some (some p)

/-- The slots at distances `0 .. d - 1` from `i` on the cyclic walk are occupied
by entries whose key is not `k`. -/
def Chain (tbl : List (Option Pair)) (c k i d : Nat) : Prop :=
  ∀ e, e < d → ∃ p, tbl[(i + e) % c]? = some (some p) ∧ p.key ≠ k

/-- Probe-chain invariant of a backing array of `c` slots: every entry sits on
the cyclic walk from the hash of its key, and the slots walked before it are
occupied by entries with other keys. -/
def ProbeChain (H : Hash) (tbl : List (Option Pair)) (c : Nat) : Prop :=
  ∀ (j : Nat) (p : Pair), tbl[j]? = some (some p) →
    ∃ d, d < c ∧ (H.fn p.key c + d) % c = j ∧ Chain tbl c p.key (H.fn p.key c) d

/-- Well-formedness of a `HashTable`: the array has `capacity` slots, the
probe-chain invariant holds and `size` counts the occupied slots. -/
structure TableInv (H : Hash) (t : HashTable) : Prop where
  len : t.table.length = t.capacity
  cap_pos : 0 < t.capacity
  chain : ProbeChain H t.table t.capacity
  count : t.size = (entries t.table).length

/-- The migration of the old slots listed in `idxs`, one after another: what
the workers do, seen as one sequence of slot migrations. -/
def migrate_list (H : Hash) (old : List (Option Pair)) (new_cap : Nat) :
    List Nat → List (Option Pair) → Option (List (Option Pair))
  | [], new_table => some new_table
  | i :: rest, new_table =>
    match old[i]? with
    | none => none
    | some none => migrate_list H old new_cap rest new_table
    | some (some curr) =>
      match migrate_loop new_table new_cap curr new_cap (H.fn curr.key new_cap) with
      | none => none
      | some nt => migrate_list H old new_cap rest nt

/-- The old slots worker `i` migrates, in its order. -/
def chunk (t : HashTable) (mt_count i : Nat) : List Nat :=
  List.range' (migrator_args t mt_count i).start
    ((migrator_args t mt_count i).stop - (migrator_args t mt_count i).start)

/-- What holds of the new array while the old slots listed in `S` have been
migrated: it has `c2` slots, satisfies the probe-chain invariant, and holds
exactly the entries of those old slots. -/
structure MigInv (H : Hash) (old nt : List (Option Pair)) (c2 : Nat) (S : List Nat) :
    Prop where
  len : nt.length = c2
  chain : ProbeChain H nt c2
  perm : (entries nt).Perm (S.filterMap (fun i => (old[i]?).join))

/-- What holds of the state between two operations: the table is well formed,
no migration is in progress, there is at least one worker, and the load is at
most one half. -/
structure Inv (H : Hash) (s : Server) : Prop where
  table : TableInv H s.table
  idle : s.isMigration = false
  workers : 0 < s.mt_count
  load : 2 * s.table.size ≤ s.table.capacity

/-- The state a successful insert of an absent key leaves, and the table `t1`
its probe loop publishes before the load test. -/
structure Inserted (H : Hash) (order : List Nat) (s : Server) (k v : Nat)
    (t1 : HashTable) (s2 : Server) : Prop where
  loop : insert_loop s.table k ⟨k, v⟩ s.table.capacity (H.fn k s.table.capacity) =
    some (some t1)
  published : TableInv H t1
  pub_capacity : t1.capacity = s.table.capacity
  pub_size : t1.size = s.table.size + 1
  pub_entries : (entries t1.table).Perm (⟨k, v⟩ :: entries s.table.table)
  call : insert H zeroed order s k v = some (SUCCESS, s2)
  inv : Inv H s2
  same_entries : (entries s2.table.table).Perm (entries t1.table)
  size : s2.table.size = s.table.size + 1
  capacity : s2.table.capacity =
    if over_load (s.table.size + 1) s.table.capacity then 2 * s.table.capacity
    else s.table.capacity
  workers : s2.mt_count = s.mt_count
  grown : over_load (s.table.size + 1) s.table.capacity = true →
    grow H zeroed order { s with table := t1 } = some s2

/-- The state reached from `init_server 1 4` by `insert(1, 0)`. -/
def zero_value_state : Server :=
  { table := { table := [none, some ⟨1, 0⟩, none, none], size := 1, capacity := 4 },
    isMigration := false,
    mt_count := 1 }

/-- The state reached from `init_server 2 4` by `insert(1, 11)`. -/
def one_key_state : Server :=
  { table := { table := [none, some ⟨1, 11⟩, none, none], size := 1, capacity := 4 },
    isMigration := false,
    mt_count := 2 }

/-- The state reached from `one_key_state` by `insert(2, 22)`. -/
def two_keys_state : Server :=
  { table := { table := [none, some ⟨1, 11⟩, some ⟨2, 22⟩, none], size := 2, capacity := 4 },
    isMigration := false,
    mt_count := 2 }

/-- The state reached from `two_keys_state` by `insert(3, 33)`, which grows the
table. -/
def three_keys_state : Server :=
  { table :=
      { table := [none, some ⟨1, 11⟩, some ⟨2, 22⟩, some ⟨3, 33⟩, none, none, none, none],
        size := 3,
        capacity := 8 },
    isMigration := false,
    mt_count := 2 }

/-- The state reached from `init_server 1 2` by `insert(10, 1)`. -/
def half_full_state : Server :=
  { table := { table := [some ⟨10, 1⟩, none], size := 1, capacity := 2 },
    isMigration := false,
    mt_count := 1 }

/-- The table the probe loop of `insert(20, 2)` publishes in `half_full_state`:
both slots are occupied. -/
def full_table : HashTable :=
  { table := [some ⟨10, 1⟩, some ⟨20, 2⟩], size := 2, capacity := 2 }

/-- The state `insert(20, 2)` leaves, after its grow. -/
def regrown_state : Server :=
  { table :=
      { table := [some ⟨20, 2⟩, none, some ⟨10, 1⟩, none], size := 2, capacity := 4 },
    isMigration := false,
    mt_count := 1 }

/-- The state reached from `init_server 1 1` by `insert(5, 6)`, which grows the
table of capacity 1. -/
def grown_from_one : Server :=
  { table := { table := [none, some ⟨5, 6⟩], size := 1, capacity := 2 },
    isMigration := false,
    mt_count := 1 }

/-- Memory that holds a stale pointer in slot 1 and `NULL` elsewhere. -/
def stale_memory : Nat → Option Pair := fun i => if i = 1 then some ⟨99, 7⟩ else none

/-- The state `insert(4, 6)` leaves from `init_server 1 1` when the memory
`Malloc` returns for the new array is `stale_memory`. -/
def phantom_state : Server :=
  { table := { table := [some ⟨4, 6⟩, some ⟨99, 7⟩], size := 1, capacity := 2 },
    isMigration := false,
    mt_count := 1 }

/-- The state reached from `one_key_state` by `insert(5, 55)`: key 5 hashes to
the slot of key 1 and sits in the next one. -/
def collision_state : Server :=
  { table := { table := [none, some ⟨1, 11⟩, some ⟨5, 55⟩, none], size := 2, capacity := 4 },
    isMigration := false,
    mt_count := 2 }

/-- The party that takes the next step while a `get` runs during the end of a
grow. -/
inductive Actor
  | reader
  | leader
deriving DecidableEq

/-- The shared words a `get` reads while the migration leader installs the new
array (lines 224-225): the two arrays, whether `table->table` already points
to `new_table`, the word `table->capacity`, and how many of its two stores the
leader has done.  The workers have joined, so neither array changes. -/
structure SwapState where
  old_table : List (Option Pair)
  new_table : List (Option Pair)
  installed : Bool
  capacity : Nat
  leader_pc : Nat
deriving DecidableEq

/-- Where a running `get` stands: before `hash_function(key, l_table->capacity)`
(line 118), before `i = i % l_table->capacity` (line 120), before the load
`l_table->table[i]` (line 121), or after a `return`; `fault` is an access out
of bounds or a remainder by 0. -/
inductive GetPc
  | start
  | reduce (i : Nat)
  | load (i : Nat)
  | returned (ret : Nat)
  | fault
deriving DecidableEq

/-- The leader's next store: `table->table = new_table;` and then
`table->capacity = 2 * table->capacity;`. -/
def leader_step (sh : SwapState) : SwapState :=
  match sh.leader_pc with
  | 0 => { sh with installed := true, leader_pc := 1 }
  | 1 => { sh with capacity := 2 * sh.capacity, leader_pc := 2 }
  | _ => sh

/-- One statement of `get`, reading the shared words as they are now.  The
pointer `table` itself never changes, so `l_table` is `table` throughout. -/
def get_step (H : Hash) (key : Nat) (sh : SwapState) : GetPc → GetPc
  | GetPc.start => GetPc.reduce (H.fn key sh.capacity)
  | GetPc.reduce i => if sh.capacity = 0 then GetPc.fault else GetPc.load (i % sh.capacity)
  | GetPc.load i =>
    match (if sh.installed then sh.new_table else sh.old_table)[i]? with
    | none => GetPc.fault
    | some none => GetPc.returned FAILURE
    | some (some curr) =>
      if curr.key = key then GetPc.returned curr.val else GetPc.reduce (i + 1)
  | GetPc.returned ret => GetPc.returned ret
  | GetPc.fault => GetPc.fault

/-- A sequentially consistent interleaving of a `get` with the leader's two
stores: the steps are taken in the order the schedule lists. -/
def run_schedule (H : Hash) (key : Nat) : List Actor → SwapState → GetPc → SwapState × GetPc
  | [], sh, pc => (sh, pc)
  | Actor.reader :: rest, sh, pc => run_schedule H key rest sh (get_step H key sh pc)
  | Actor.leader :: rest, sh, pc => run_schedule H key rest (leader_step sh) pc

/-- The state reached from `init_server 1 4` by `insert(5, 55)`. -/
def swap_first_state : Server :=
  { table := { table := [none, some ⟨5, 55⟩, none, none], size := 1, capacity := 4 },
    isMigration := false,
    mt_count := 1 }

/-- The state reached from `swap_first_state` by `insert(2, 22)`. -/
def pre_swap_state : Server :=
  { table := { table := [none, some ⟨5, 55⟩, some ⟨2, 22⟩, none], size := 2, capacity := 4 },
    isMigration := false,
    mt_count := 1 }

/-- The table `insert(3, 33)` publishes in `pre_swap_state` before it grows. -/
def swap_published : HashTable :=
  { table := [none, some ⟨5, 55⟩, some ⟨2, 22⟩, some ⟨3, 33⟩], size := 3, capacity := 4 }

/-- The new array once the worker of that grow has joined. -/
def swap_new_array : List (Option Pair) :=
  [none, none, some ⟨2, 22⟩, some ⟨3, 33⟩, none, some ⟨5, 55⟩, none, none]

/-- The shared words when the leader is about to install `swap_new_array`. -/
def swap_start : SwapState :=
  { old_table := swap_published.table, new_table := swap_new_array, installed := false,
    capacity := 4, leader_pc := 0 }

/-- What one call of `getopt(argc, argv, "hvn:s:")` yields in `parse_args`: an
option letter, with the value `atoi(optarg)` for `-n` and `-s`; `other` is the
`?` of an unknown option or a missing argument. -/
inductive Opt
  | h
  | v
  | n (value : Int)
  | s (value : Int)
  | other
deriving DecidableEq

/-- The globals `parse_args` writes: `st_count`, `cap` and `verbose`. -/
structure Globals where
  st_count : Int
  cap : Int
  verbose : Int
deriving DecidableEq

/-- How `parse_args` ends: `exit(status)` for `-h`, or a `return` with the
globals as it leaves them. -/
inductive ParseResult
  | exited (status : Int)
  | returned (code : Int) (g : Globals)
deriving DecidableEq

/-- The `while` loop of `parse_args` over the options `getopt` yields, and the
test that follows it. -/
def parse_args_from (g : Globals) : List Opt → ParseResult
  | [] => if g.st_count = 0 ∨ g.cap = 0 then ParseResult.returned (-1) g
    else ParseResult.returned 0 g
  | Opt.h :: _ => ParseResult.exited 0
  | Opt.n value :: rest => parse_args_from { g with st_count := value } rest
  | Opt.s value :: rest => parse_args_from { g with cap := value } rest
  | Opt.v :: rest => parse_args_from { g with verbose := 1 } rest
  | Opt.other :: _ => ParseResult.returned (-1) g

/-- The function `parse_args` of the source, called once by `main` with the
globals still zero. -/
def parse_args (opts : List Opt) : ParseResult :=
  parse_args_from { st_count := 0, cap := 0, verbose := 0 } opts

/-- Modelled from the spec: `struct buffer_descriptor` is declared in
`ring_buffer.h`, which is not among the sources; the spec gives its fields
`req_type`, `k`, `v`, `res_off` (32-bit words) and `ready` (one byte). -/
structure buffer_descriptor where
  req_type : Nat
  k : Nat
  v : Nat
  res_off : Nat
  ready : Nat
deriving DecidableEq

/-- Modelled from the spec: the request type `PUT` of `common.h` is 0. -/
def PUT : Nat := 0

/-- Modelled from the spec: the request type `GET` of `common.h` is 1. -/
def GET : Nat := 1

/-- Modelled from the spec: `struct ring` is declared in `ring_buffer.h`, which
is not among the sources; the spec gives it four 32-bit cursors and an array of
`RING_SIZE` descriptors.  `RING_SIZE`, a macro of the same header, is a
parameter of the ring functions. -/
structure Ring where
  p_head : Nat
  p_tail : Nat
  c_head : Nat
  c_tail : Nat
  buffer : List buffer_descriptor
deriving DecidableEq

/-- The number of values of a `uint32_t`. -/
def UINT32_MOD : Nat := 4294967296

/-- The function `init_ring`: `memset` clears the cursors and the buffer. -/
def init_ring (RING_SIZE : Nat) : Ring :=
  { p_head := 0, p_tail := 0, c_head := 0, c_tail := 0,
    buffer := List.replicate RING_SIZE ⟨0, 0, 0, 0, 0⟩ }

/-- The function `ring_submit` in a sequential run.  While the ring is full the
caller yields, and with nobody to consume it never proceeds; the
compare-exchange on `p_head` succeeds at once; the descriptor is copied to
`buffer[p_head]`; the last loop waits until `p_tail` is the claimed `p_head`,
which nobody else changes.  `none` also stands for a remainder by 0 and for a
copy outside the buffer. -/
def ring_submit (RING_SIZE : Nat) (r : Ring) (bd : buffer_descriptor) : Option Ring :=
  if RING_SIZE = 0 then none
  else if (r.p_head + 1) % UINT32_MOD % RING_SIZE = r.c_tail then none
  else if r.buffer.length ≤ r.p_head then none
  else if r.p_tail ≠ r.p_head then none
  else
    some { r with
      p_head := (r.p_head + 1) % UINT32_MOD % RING_SIZE,
      p_tail := (r.p_head + 1) % UINT32_MOD % RING_SIZE,
      buffer := r.buffer.set r.p_head bd }

/-- The function `ring_get` in a sequential run: it waits while `c_head` is
`p_tail`, claims `c_head`, copies `buffer[c_head]` out and moves `c_tail`. -/
def ring_get (RING_SIZE : Nat) (r : Ring) : Option (Ring × buffer_descriptor) :=
  if RING_SIZE = 0 then none
  else if r.c_head = r.p_tail then none
  else
    match r.buffer[r.c_head]? with
    | none => none
    | some bd =>
      if r.c_tail ≠ r.c_head then none
      else
        some ({ r with
          c_head := (r.c_head + 1) % UINT32_MOD % RING_SIZE,
          c_tail := (r.c_head + 1) % UINT32_MOD % RING_SIZE }, bd)

/-- The ring states of a sequential run with their history: `RingTrace N ins
outs r` says that `r` is reached from `init_ring` by completed calls of
`ring_submit` and `ring_get`, that `ins` lists the descriptors submitted and
`outs` the descriptors returned, both in call order. -/
inductive RingTrace (N : Nat) : List buffer_descriptor → List buffer_descriptor → Ring → Prop
  | init : RingTrace N [] [] (init_ring N)
  | submit {ins outs : List buffer_descriptor} {r : Ring} (bd : buffer_descriptor)
      (r2 : Ring) (hr : RingTrace N ins outs r) (hcall : ring_submit N r bd = some r2) :
      RingTrace N (ins ++ [bd]) outs r2
  | get {ins outs : List buffer_descriptor} {r : Ring} (bd : buffer_descriptor)
      (r2 : Ring) (hr : RingTrace N ins outs r) (hcall : ring_get N r = some (r2, bd)) :
      RingTrace N ins (outs ++ [bd]) r2

/-- What holds of the ring between two calls: the head and tail cursors agree
and are below `N`, the descriptors returned are the first ones submitted, and
the others sit in the buffer from `c_tail` on, fewer than `N` of them. -/
structure RingInv (N : Nat) (ins outs : List buffer_descriptor) (r : Ring) : Prop where
  len : r.buffer.length = N
  p_eq : r.p_head = r.p_tail
  c_eq : r.c_head = r.c_tail
  p_lt : r.p_tail < N
  c_lt : r.c_tail < N
  le : outs.length ≤ ins.length
  occ_lt : ins.length - outs.length < N
  tail : (r.c_tail + (ins.length - outs.length)) % N = r.p_tail
  taken : outs = ins.take outs.length
  held : ∀ i, i < ins.length - outs.length →
    r.buffer[(r.c_tail + i) % N]? = ins[outs.length + i]?

/-- A first descriptor for the ring scenarios. -/
def first_request : buffer_descriptor := ⟨PUT, 5, 42, 64, 0⟩

/-- A second descriptor for the ring scenarios. -/
def second_request : buffer_descriptor := ⟨GET, 5, 0, 96, 0⟩

/-- The ring of size 4 after `ring_submit(first_request)`. -/
def ring_one : Ring :=
  { p_head := 1, p_tail := 1, c_head := 0, c_tail := 0,
    buffer := [first_request, ⟨0, 0, 0, 0, 0⟩, ⟨0, 0, 0, 0, 0⟩, ⟨0, 0, 0, 0, 0⟩] }

/-- The ring of size 4 after a further `ring_submit(second_request)`. -/
def ring_two : Ring :=
  { p_head := 2, p_tail := 2, c_head := 0, c_tail := 0,
    buffer := [first_request, second_request, ⟨0, 0, 0, 0, 0⟩, ⟨0, 0, 0, 0, 0⟩] }

/-- The ring of size 4 after a further `ring_get`, which returns
`first_request`. -/
def ring_three : Ring :=
  { p_head := 2, p_tail := 2, c_head := 1, c_tail := 1,
    buffer := [first_request, second_request, ⟨0, 0, 0, 0, 0⟩, ⟨0, 0, 0, 0, 0⟩] }

/-- A backing array as the source holds it has in each slot `NULL` (`none`) or
the address of a `Pair` object.  Given the `Pair` stored at each address,
`deref_slots` is the array of the entries the slots point to. -/
def deref_slots (heap : Nat → Pair) (slots : List (Option Nat)) : List (Option Pair) :=
  slots.map (Option.map heap)

/-- The inner `while (1)` of `migrateTable` on the slots themselves: the
compare-exchange stores the pointer `table->table[i]`, here `ref`, into the
first empty slot of the new array. -/
def migrate_loop_ref (new_table : List (Option Nat)) (new_cap : Nat) (ref : Nat) :
    Nat → Nat → Option (List (Option Nat))
  | 0, _ => none
  | fuel + 1, new_i =>
    match new_table[new_i % new_cap]? with
    | none => none
    | some none => some (new_table.set (new_i % new_cap) (some ref))
    | some (some _) => migrate_loop_ref new_table new_cap ref fuel (new_i % new_cap + 1)

/-- The `for` loop of `migrateTable` on the slots themselves: `curr` is the
pointer in slot `i` of the old array and `curr->key` is read through it. -/
def migrate_for_ref (H : Hash) (heap : Nat → Pair) (old : List (Option Nat))
    (new_cap : Nat) : Nat → Nat → List (Option Nat) → Option (List (Option Nat))
  | 0, _, new_table => some new_table
  | n + 1, i, new_table =>
    match old[i]? with
    | none => none
    | some none => migrate_for_ref H heap old new_cap n (i + 1) new_table
    | some (some curr) =>
      match migrate_loop_ref new_table new_cap curr new_cap
          (H.fn (heap curr).key new_cap) with
      | none => none
      | some nt => migrate_for_ref H heap old new_cap n (i + 1) nt

/-- The worker `migrateTable` on the slots themselves.  It allocates nothing:
the `Pair` objects (`heap`) are only read. -/
def migrateTable_ref (H : Hash) (heap : Nat → Pair) (old : List (Option Nat))
    (args : MigratorArgs) (new_table : List (Option Nat)) : Option (List (Option Nat)) :=
  if args.new_cap = 0 then none
  else migrate_for_ref H heap old args.new_cap (args.stop - args.start) args.start new_table

/-- The migration workers on the slots themselves, run one after another in
the order `order`, with the arguments the leader computes from `table`. -/
def run_migrators_ref (H : Hash) (heap : Nat → Pair) (old : List (Option Nat))
    (table : HashTable) (mt_count : Nat) :
    List Nat → List (Option Nat) → Option (List (Option Nat))
  | [], new_table => some new_table
  | i :: rest, new_table =>
    match migrateTable_ref H heap old (migrator_args table mt_count i) new_table with
    | none => none
    | some nt => run_migrators_ref H heap old table mt_count rest nt

/-- The entry that carries the key of the `Pair` at address `a` and, as its
value, the address itself: it tells two `Pair` objects with equal content
apart. -/
def tagged (heap : Nat → Pair) (a : Nat) : Pair := ⟨(heap a).key, a⟩

/-- Modelled from the spec: the byte offset of the field `v` in a
`buffer_descriptor`, after the 32-bit words `req_type` and `k`. -/
def V_OFFSET : Nat := 8

/-- Modelled from the spec: the byte offset of the field `ready` in a
`buffer_descriptor`, after the four 32-bit words `req_type`, `k`, `v` and
`res_off`. -/
def READY_OFFSET : Nat := 16

/-- A store of `server_thread` into the shared memory area: of a 32-bit word
(`res->v = ret`) or of one byte (`res->ready = 1`) at a byte address, counted
from `shmem_area`. -/
inductive Store
  | word (addr : Nat) (x : Nat)
  | byte (addr : Nat) (x : Nat)
deriving DecidableEq

/-- A store of one byte into the shared memory area, given as the list of the
bytes of the mapping.  The source checks no offset: a store outside the mapping
has no defined result. -/
def store_byte (shmem_area : List Nat) (addr x : Nat) : Option (List Nat) :=
  if addr < shmem_area.length then some (shmem_area.set addr (x % 256)) else none

/-- A store of the low 32 bits of `x` into the four bytes at `addr`, least
significant byte first. -/
def store_word (shmem_area : List Nat) (addr x : Nat) : Option (List Nat) :=
  if addr + 4 ≤ shmem_area.length then
    some ((((shmem_area.set addr (x % 256)).set (addr + 1) (x / 256 % 256)).set (addr + 2)
      (x / 65536 % 256)).set (addr + 3) (x / 16777216 % 256))
  else none

/-- The 32-bit word held by the four bytes at `addr`. -/
def load_word (shmem_area : List Nat) (addr : Nat) : Option Nat :=
  match shmem_area[addr]?, shmem_area[addr + 1]?, shmem_area[addr + 2]?,
    shmem_area[addr + 3]? with
  | some b0, some b1, some b2, some b3 => some (b0 + 256 * b1 + 65536 * b2 + 16777216 * b3)
  | _, _, _, _ => none

/-- The effect of one store on the shared memory area. -/
def run_store (shmem_area : List Nat) : Store → Option (List Nat)
  | Store.word addr x => store_word shmem_area addr x
  | Store.byte addr x => store_byte shmem_area addr x

/-- The effect of a sequence of stores, performed in the order of the list. -/
def run_stores : List Nat → List Store → Option (List Nat)
  | shmem_area, [] => some shmem_area
  | shmem_area, st :: rest =>
    match run_store shmem_area st with
    | none => none
    | some m2 => run_stores m2 rest

/-- One iteration of the loop of `server_thread`, for the descriptor `bd` its
`ring_get` returned: the `switch` on `bd.req_type`.  The result is the table
state it leaves and the stores through `res = &shmem_area[bd.res_off]` that it
performs, in program order. -/
def server_thread (H : Hash) (garbage : Nat → Option Pair) (order : List Nat)
    (bd : buffer_descriptor) (s : Server) : Option (Server × List Store) :=
  if bd.req_type = GET then
    match get H s bd.k with
    | none => none
    | some ret =>
      some (s, [Store.word (bd.res_off + V_OFFSET) ret,
        Store.byte (bd.res_off + READY_OFFSET) 1])
  else if bd.req_type = PUT then
    match insert H garbage order s bd.k bd.v with
    | none => none
    | some (_, s2) => some (s2, [Store.byte (bd.res_off + READY_OFFSET) 1])
  else some (s, [])

/-- One iteration of `server_thread` with its effect on the shared memory
area. -/
def serve (H : Hash) (garbage : Nat → Option Pair) (order : List Nat)
    (bd : buffer_descriptor) (s : Server) (shmem_area : List Nat) :
    Option (Server × List Nat) :=
  match server_thread H garbage order bd s with
  | none => none
  | some (s2, stores) =>
    match run_stores shmem_area stores with
    | none => none
    | some m2 => some (s2, m2)

/-! ## Backing arrays -/

theorem entries_length_le (tbl : List (Option Pair)) : (entries tbl).length ≤ tbl.length :=
  List.length_filterMap_le id tbl

theorem mem_entries_iff (tbl : List (Option Pair)) (p : Pair) :
    p ∈ entries tbl ↔ ∃ j : Nat, tbl[j]? = some (some p) := by
  unfold entries
  rw [List.mem_filterMap]
  constructor
  · rintro ⟨a, ha, hp⟩
    obtain ⟨j, hj⟩ := List.mem_iff_getElem?.mp ha
    have : a = some p := hp
    exact ⟨j, by rw [hj, this]⟩
  · rintro ⟨j, hj⟩
    exact ⟨some p, List.mem_iff_getElem?.mpr ⟨j, hj⟩, rfl⟩

theorem mem_keys_iff (tbl : List (Option Pair)) (k : Nat) :
    k ∈ keys tbl ↔ ∃ (j : Nat) (p : Pair), tbl[j]? = some (some p) ∧ p.key = k := by
  unfold keys
  rw [List.mem_map]
  constructor
  · rintro ⟨p, hp, hk⟩
    obtain ⟨j, hj⟩ := (mem_entries_iff tbl p).mp hp
    exact ⟨j, p, hj, hk⟩
  · rintro ⟨j, p, hj, hk⟩
    exact ⟨p, (mem_entries_iff tbl p).mpr ⟨j, hj⟩, hk⟩

/-- Publishing an entry into an empty slot adds exactly that entry. -/
theorem entries_set_perm (tbl : List (Option Pair)) (j : Nat) (p : Pair)
    (hj : tbl[j]? = some none) :
    (entries (tbl.set j (some p))).Perm (p :: entries tbl) := by
  induction tbl generalizing j with
  | nil => simp at hj
  | cons a rest ih =>
    cases j with
    | zero =>
      simp at hj
      subst hj
      simp [entries]
    | succ j =>
      simp at hj
      have h1 := ih j hj
      cases a with
      | none => simpa [entries] using h1
      | some q =>
        have h2 : (entries ((some q :: rest).set (j + 1) (some p))) =
            q :: entries (rest.set j (some p)) := by simp [entries]
        have h3 : entries (some q :: rest) = q :: entries rest := by simp [entries]
        rw [h2, h3]
        exact (List.Perm.cons q h1).trans (List.Perm.swap p q _)

/-- An array with fewer entries than slots has an empty slot. -/
theorem exists_empty_slot (tbl : List (Option Pair))
    (hlt : (entries tbl).length < tbl.length) :
    ∃ j, j < tbl.length ∧ tbl[j]? = some none := by
  induction tbl with
  | nil => simp at hlt
  | cons a rest ih =>
    cases a with
    | none => exact ⟨0, by simp, by simp⟩
    | some q =>
      have h3 : entries (some q :: rest) = q :: entries rest := by simp [entries]
      rw [h3] at hlt
      simp only [List.length_cons] at hlt
      obtain ⟨j, hj, hj2⟩ := ih (by omega)
      exact ⟨j + 1, by simp; omega, by simpa using hj2⟩

theorem entries_replicate_none (n : Nat) : entries (List.replicate n none) = [] := by
  induction n with
  | zero => rfl
  | succ n ih => simp [entries, List.replicate_succ]

theorem malloc_slots_zeroed (n : Nat) : malloc_slots zeroed n = List.replicate n none := by
  unfold malloc_slots zeroed
  apply List.ext_getElem?
  intro i
  by_cases hi : i < n
  · simp [List.getElem?_replicate, hi, List.getElem?_range]
  · simp [List.getElem?_replicate, hi]

/-! ## Cyclic probing -/

theorem chain_occ {tbl : List (Option Pair)} {c k i d : Nat} (h : Chain tbl c k i d) :
    Occ tbl c i d := fun e he => by
  obtain ⟨p, hp, _⟩ := h e he
  exact ⟨p, hp⟩

theorem step_mod (i c e : Nat) : (i % c + 1 + e) % c = (i + (e + 1)) % c := by
  rw [Nat.add_assoc, Nat.mod_add_mod, Nat.add_comm 1 e]

theorem chain_tail {tbl : List (Option Pair)} {c k i d : Nat}
    (h : Chain tbl c k i (d + 1)) : Chain tbl c k (i % c + 1) d := fun e he => by
  rw [step_mod]
  exact h (e + 1) (by omega)

theorem occ_tail {tbl : List (Option Pair)} {c i d : Nat}
    (h : Occ tbl c i (d + 1)) : Occ tbl c (i % c + 1) d := fun e he => by
  rw [step_mod]
  exact h (e + 1) (by omega)

theorem get_loop_found (tbl : List (Option Pair)) (c k : Nat) (p : Pair) :
    ∀ (d fuel i : Nat), Chain tbl c k i d → tbl[(i + d) % c]? = some (some p) →
      p.key = k → d < fuel → get_loop tbl c k fuel i = some p.val := by
  intro d
  induction d with
  | zero =>
    intro fuel i _ hp hk hf
    obtain ⟨f, rfl⟩ : ∃ f, fuel = f + 1 := ⟨fuel - 1, by omega⟩
    simp only [Nat.add_zero] at hp
    simp [get_loop, hp, hk]
  | succ d ih =>
    intro fuel i hc hp hk hf
    obtain ⟨f, rfl⟩ : ∃ f, fuel = f + 1 := ⟨fuel - 1, by omega⟩
    obtain ⟨q, hq, hqk⟩ := hc 0 (by omega)
    simp only [Nat.add_zero] at hq
    have hrec := ih f (i % c + 1) (chain_tail hc) (by rw [step_mod]; exact hp) hk (by omega)
    simp [get_loop, hq, hqk, hrec]

theorem get_loop_empty (tbl : List (Option Pair)) (c k : Nat) :
    ∀ (d fuel i : Nat), Chain tbl c k i d → tbl[(i + d) % c]? = some none →
      d < fuel → get_loop tbl c k fuel i = some FAILURE := by
  intro d
  induction d with
  | zero =>
    intro fuel i _ hp hf
    obtain ⟨f, rfl⟩ : ∃ f, fuel = f + 1 := ⟨fuel - 1, by omega⟩
    simp only [Nat.add_zero] at hp
    simp [get_loop, hp]
  | succ d ih =>
    intro fuel i hc hp hf
    obtain ⟨f, rfl⟩ : ∃ f, fuel = f + 1 := ⟨fuel - 1, by omega⟩
    obtain ⟨q, hq, hqk⟩ := hc 0 (by omega)
    simp only [Nat.add_zero] at hq
    have hrec := ih f (i % c + 1) (chain_tail hc) (by rw [step_mod]; exact hp) (by omega)
    simp [get_loop, hq, hqk, hrec]

theorem insert_loop_dup (t : HashTable) (k : Nat) (np p : Pair) :
    ∀ (d fuel i : Nat), Chain t.table t.capacity k i d →
      t.table[(i + d) % t.capacity]? = some (some p) → p.key = k → d < fuel →
      insert_loop t k np fuel i = some none := by
  intro d
  induction d with
  | zero =>
    intro fuel i _ hp hk hf
    obtain ⟨f, rfl⟩ : ∃ f, fuel = f + 1 := ⟨fuel - 1, by omega⟩
    simp only [Nat.add_zero] at hp
    simp [insert_loop, hp, hk]
  | succ d ih =>
    intro fuel i hc hp hk hf
    obtain ⟨f, rfl⟩ : ∃ f, fuel = f + 1 := ⟨fuel - 1, by omega⟩
    obtain ⟨q, hq, hqk⟩ := hc 0 (by omega)
    simp only [Nat.add_zero] at hq
    have hrec := ih f (i % t.capacity + 1) (chain_tail hc) (by rw [step_mod]; exact hp) hk
      (by omega)
    simp [insert_loop, hq, hqk, hrec]

theorem insert_loop_publish (t : HashTable) (k : Nat) (np : Pair) :
    ∀ (d fuel i : Nat), Chain t.table t.capacity k i d →
      t.table[(i + d) % t.capacity]? = some none → d < fuel →
      insert_loop t k np fuel i =
        some (some { t with
          table := t.table.set ((i + d) % t.capacity) (some np),
          size := t.size + 1 }) := by
  intro d
  induction d with
  | zero =>
    intro fuel i _ hp hf
    obtain ⟨f, rfl⟩ : ∃ f, fuel = f + 1 := ⟨fuel - 1, by omega⟩
    simp only [Nat.add_zero] at hp
    simp [insert_loop, hp]
  | succ d ih =>
    intro fuel i hc hp hf
    obtain ⟨f, rfl⟩ : ∃ f, fuel = f + 1 := ⟨fuel - 1, by omega⟩
    obtain ⟨q, hq, hqk⟩ := hc 0 (by omega)
    simp only [Nat.add_zero] at hq
    have hrec := ih f (i % t.capacity + 1) (chain_tail hc) (by rw [step_mod]; exact hp) (by omega)
    rw [step_mod] at hrec
    simp [insert_loop, hq, hqk, hrec]

theorem migrate_loop_place (nt : List (Option Pair)) (c : Nat) (entry : Pair) :
    ∀ (d fuel i : Nat), Occ nt c i d → nt[(i + d) % c]? = some none → d < fuel →
      migrate_loop nt c entry fuel i = some (nt.set ((i + d) % c) (some entry)) := by
  intro d
  induction d with
  | zero =>
    intro fuel i _ hp hf
    obtain ⟨f, rfl⟩ : ∃ f, fuel = f + 1 := ⟨fuel - 1, by omega⟩
    simp only [Nat.add_zero] at hp
    simp [migrate_loop, hp]
  | succ d ih =>
    intro fuel i hc hp hf
    obtain ⟨f, rfl⟩ : ∃ f, fuel = f + 1 := ⟨fuel - 1, by omega⟩
    obtain ⟨q, hq⟩ := hc 0 (by omega)
    simp only [Nat.add_zero] at hq
    have hrec := ih f (i % c + 1) (occ_tail hc) (by rw [step_mod]; exact hp) (by omega)
    rw [step_mod] at hrec
    simp [migrate_loop, hq, hrec]

/-- Every slot `j` is met by the cyclic walk from `i` within `c` steps. -/
theorem walk_reaches (c i j : Nat) (hj : j < c) : ∃ d, d < c ∧ (i + d) % c = j := by
  have hc : 0 < c := by omega
  have hr : i % c < c := Nat.mod_lt i hc
  refine ⟨(j + c - i % c) % c, Nat.mod_lt _ hc, ?_⟩
  rw [Nat.add_mod_mod]
  have hi : i % c + c * (i / c) = i := Nat.mod_add_div i c
  have h1 : i + (j + c - i % c) = j + c * (i / c + 1) := by
    rw [Nat.mul_add, Nat.mul_one]
    generalize c * (i / c) = t at hi
    omega
  rw [h1, Nat.add_mul_mod_self_left, Nat.mod_eq_of_lt hj]

/-- From any start, the cyclic walk over an array with an empty slot meets a
first empty slot within `c` steps, after occupied slots only. -/
theorem first_empty (tbl : List (Option Pair)) (c i : Nat) (hlen : tbl.length = c)
    (hempty : ∃ j, j < c ∧ tbl[j]? = some none) :
    ∃ d, d < c ∧ Occ tbl c i d ∧ tbl[(i + d) % c]? = some none := by
  classical
  obtain ⟨j, hj, hjn⟩ := hempty
  have hc : 0 < c := by omega
  obtain ⟨d0, hd0, hd0j⟩ := walk_reaches c i j hj
  have hex : ∃ d, tbl[(i + d) % c]? = some none := ⟨d0, by rw [hd0j]; exact hjn⟩
  refine ⟨Nat.find hex, ?_, ?_, Nat.find_spec hex⟩
  · have hmin : Nat.find hex ≤ d0 := Nat.find_min' hex (by rw [hd0j]; exact hjn)
    omega
  · intro e he
    have hne : ¬ tbl[(i + e) % c]? = some none := Nat.find_min hex he
    have hlt : (i + e) % c < tbl.length := by rw [hlen]; exact Nat.mod_lt _ hc
    rw [List.getElem?_eq_getElem hlt] at hne ⊢
    cases hv : tbl[(i + e) % c] with
    | none => rw [hv] at hne; exact absurd rfl hne
    | some p => exact ⟨p, rfl⟩

theorem chain_set {tbl : List (Option Pair)} {c k i d : Nat} (h : Chain tbl c k i d)
    (j : Nat) (x : Option Pair) (hj : tbl[j]? = some none) :
    Chain (tbl.set j x) c k i d := fun e he => by
  obtain ⟨p, hp, hk⟩ := h e he
  refine ⟨p, ?_, hk⟩
  have hne : j ≠ (i + e) % c := by
    intro heq
    rw [← heq, hj] at hp
    simp at hp
  rw [List.getElem?_set_ne hne]
  exact hp

/-! ## The probe-chain invariant -/

/-- Placing an entry at the first empty slot of its walk keeps the invariant,
when the walk met no entry with the same key. -/
theorem probeChain_set {H : Hash} {tbl : List (Option Pair)} {c : Nat}
    (hpc : ProbeChain H tbl c) (hlen : tbl.length = c) (p : Pair) (d : Nat) (hd : d < c)
    (hch : Chain tbl c p.key (H.fn p.key c) d)
    (hemp : tbl[(H.fn p.key c + d) % c]? = some none) :
    ProbeChain H (tbl.set ((H.fn p.key c + d) % c) (some p)) c := by
  intro j q hq
  by_cases hj : (H.fn p.key c + d) % c = j
  · have hlt : (H.fn p.key c + d) % c < tbl.length := by
      rw [hlen]; exact Nat.mod_lt _ (by omega)
    rw [← hj, List.getElem?_set_self hlt] at hq
    have hpq : p = q := by simpa using hq
    subst hpq
    exact ⟨d, hd, hj, chain_set hch _ _ hemp⟩
  · rw [List.getElem?_set_ne hj] at hq
    obtain ⟨d2, hd2, hd2j, hch2⟩ := hpc j q hq
    exact ⟨d2, hd2, hd2j, chain_set hch2 _ _ hemp⟩

/-- Under the invariant no key is held by two slots. -/
theorem probeChain_unique {H : Hash} {tbl : List (Option Pair)} {c : Nat}
    (hpc : ProbeChain H tbl c) {i j : Nat} {p q : Pair}
    (hp : tbl[i]? = some (some p)) (hq : tbl[j]? = some (some q)) (hk : p.key = q.key) :
    i = j := by
  obtain ⟨d1, _, hd1, hc1⟩ := hpc i p hp
  obtain ⟨d2, _, hd2, hc2⟩ := hpc j q hq
  rcases Nat.lt_trichotomy d1 d2 with hlt | heq | hgt
  · obtain ⟨r, hr, hrk⟩ := hc2 d1 hlt
    rw [← hk, hd1, hp] at hr
    have : p = r := by simpa using hr
    subst this
    exact absurd hk hrk
  · rw [← hd1, ← hd2, hk, heq]
  · obtain ⟨r, hr, hrk⟩ := hc1 d2 hgt
    rw [hk, hd2, hq] at hr
    have : q = r := by simpa using hr
    subst this
    exact absurd hk.symm hrk

theorem probeChain_replicate (H : Hash) (n c : Nat) :
    ProbeChain H (List.replicate n none) c := by
  intro j p hp
  rw [List.getElem?_replicate] at hp
  split at hp <;> simp at hp

/-! ## Lookup and publication on a well-formed array -/

theorem tableInv_size_le {H : Hash} {t : HashTable} (h : TableInv H t) :
    t.size ≤ t.capacity := by
  rw [h.count, ← h.len]
  exact entries_length_le _

theorem get_loop_present {H : Hash} {t : HashTable} (h : TableInv H t) {j : Nat} {p : Pair}
    (hp : t.table[j]? = some (some p)) :
    get_loop t.table t.capacity p.key t.capacity (H.fn p.key t.capacity) = some p.val := by
  obtain ⟨d, hd, hdj, hch⟩ := h.chain j p hp
  exact get_loop_found t.table t.capacity p.key p d t.capacity _ hch (by rw [hdj]; exact hp)
    rfl hd

/-- The walk for a key the array does not hold ends at an empty slot, when
there is one. -/
theorem absent_walk {H : Hash} {t : HashTable} (h : TableInv H t)
    (hroom : t.size < t.capacity) {k : Nat} (hk : k ∉ keys t.table) (i : Nat) :
    ∃ d, d < t.capacity ∧ Chain t.table t.capacity k i d ∧
      t.table[(i + d) % t.capacity]? = some none := by
  have hex : ∃ j, j < t.capacity ∧ t.table[j]? = some none := by
    obtain ⟨j, hj, hjn⟩ := exists_empty_slot t.table (by rw [← h.count, h.len]; exact hroom)
    exact ⟨j, by rw [← h.len]; exact hj, hjn⟩
  obtain ⟨d, hd, hocc, hemp⟩ := first_empty t.table t.capacity i h.len hex
  refine ⟨d, hd, ?_, hemp⟩
  intro e he
  obtain ⟨p, hp⟩ := hocc e he
  refine ⟨p, hp, ?_⟩
  intro hpk
  exact hk ((mem_keys_iff _ _).mpr ⟨_, p, hp, hpk⟩)

theorem get_loop_absent {H : Hash} {t : HashTable} (h : TableInv H t)
    (hroom : t.size < t.capacity) {k : Nat} (hk : k ∉ keys t.table) :
    get_loop t.table t.capacity k t.capacity (H.fn k t.capacity) = some FAILURE := by
  obtain ⟨d, hd, hch, hemp⟩ := absent_walk h hroom hk (H.fn k t.capacity)
  exact get_loop_empty t.table t.capacity k d t.capacity _ hch hemp hd

theorem insert_loop_present {H : Hash} {t : HashTable} (h : TableInv H t) {k : Nat}
    (hk : k ∈ keys t.table) (np : Pair) :
    insert_loop t k np t.capacity (H.fn k t.capacity) = some none := by
  obtain ⟨j, p, hp, hpk⟩ := (mem_keys_iff _ _).mp hk
  obtain ⟨d, hd, hdj, hch⟩ := h.chain j p hp
  rw [hpk] at hdj hch
  exact insert_loop_dup t k np p d t.capacity _ hch (by rw [hdj]; exact hp) hpk hd

/-- The probe loop of `insert` for an absent key publishes the entry: the new
table is well formed, holds the old entries and the new one, and `size` is one
more. -/
theorem insert_loop_absent {H : Hash} {t : HashTable} (h : TableInv H t)
    (hroom : t.size < t.capacity) {k : Nat} (hk : k ∉ keys t.table) (v : Nat) :
    ∃ t1, insert_loop t k ⟨k, v⟩ t.capacity (H.fn k t.capacity) = some (some t1) ∧
      TableInv H t1 ∧ t1.capacity = t.capacity ∧ t1.size = t.size + 1 ∧
      (entries t1.table).Perm (⟨k, v⟩ :: entries t.table) := by
  obtain ⟨d, hd, hch, hemp⟩ := absent_walk h hroom hk (H.fn k t.capacity)
  refine ⟨_, insert_loop_publish t k ⟨k, v⟩ d t.capacity _ hch hemp hd, ?_, rfl, rfl, ?_⟩
  · have hperm := entries_set_perm t.table _ ⟨k, v⟩ hemp
    refine ⟨?_, h.cap_pos, ?_, ?_⟩
    · simp [h.len]
    · exact probeChain_set h.chain h.len ⟨k, v⟩ d hd hch hemp
    · simp only [hperm.length_eq, List.length_cons, h.count]
  · exact entries_set_perm t.table _ ⟨k, v⟩ hemp

/-! ## Migration -/

theorem migrate_for_eq_list (H : Hash) (old : List (Option Pair)) (new_cap : Nat) :
    ∀ (n i : Nat) (nt : List (Option Pair)),
      migrate_for H old new_cap n i nt = migrate_list H old new_cap (List.range' i n) nt := by
  intro n
  induction n with
  | zero => intro i nt; rfl
  | succ n ih =>
    intro i nt
    rw [List.range'_succ]
    unfold migrate_for migrate_list
    cases old[i]? with
    | none => rfl
    | some slot =>
      cases slot with
      | none => exact ih (i + 1) nt
      | some curr =>
        simp only
        cases migrate_loop nt new_cap curr new_cap (H.fn curr.key new_cap) with
        | none => rfl
        | some nt2 => exact ih (i + 1) nt2

theorem migrate_list_cons (H : Hash) (old : List (Option Pair)) (new_cap i : Nat)
    (rest : List Nat) (new_table : List (Option Pair)) :
    migrate_list H old new_cap (i :: rest) new_table =
      match old[i]? with
      | none => none
      | some none => migrate_list H old new_cap rest new_table
      | some (some curr) =>
        match migrate_loop new_table new_cap curr new_cap (H.fn curr.key new_cap) with
        | none => none
        | some nt => migrate_list H old new_cap rest nt := rfl

theorem migrate_list_append (H : Hash) (old : List (Option Pair)) (new_cap : Nat) :
    ∀ (l1 l2 : List Nat) (nt : List (Option Pair)),
      migrate_list H old new_cap (l1 ++ l2) nt =
        (migrate_list H old new_cap l1 nt).bind (migrate_list H old new_cap l2) := by
  intro l1
  induction l1 with
  | nil => intro l2 nt; rfl
  | cons i rest ih =>
    intro l2 nt
    simp only [List.cons_append]
    rw [migrate_list_cons, migrate_list_cons]
    cases old[i]? with
    | none => rfl
    | some slot =>
      cases slot with
      | none => exact ih l2 nt
      | some curr =>
        simp only
        cases migrate_loop nt new_cap curr new_cap (H.fn curr.key new_cap) with
        | none => rfl
        | some nt2 => exact ih l2 nt2

theorem run_migrators_eq_list (H : Hash) (t : HashTable) (mt_count : Nat)
    (hc : 0 < t.capacity) :
    ∀ (order : List Nat) (nt : List (Option Pair)),
      run_migrators H t mt_count order nt =
        migrate_list H t.table (2 * t.capacity) (order.flatMap (chunk t mt_count)) nt := by
  intro order
  induction order with
  | nil => intro nt; rfl
  | cons i rest ih =>
    intro nt
    rw [List.flatMap_cons, migrate_list_append]
    unfold run_migrators
    have hm : migrateTable H t (migrator_args t mt_count i) nt =
        migrate_list H t.table (2 * t.capacity) (chunk t mt_count i) nt := by
      unfold migrateTable
      have hnc : (migrator_args t mt_count i).new_cap = 2 * t.capacity := rfl
      rw [if_neg (by rw [hnc]; omega), migrate_for_eq_list, hnc]
      rfl
    rw [hm]
    cases migrate_list H t.table (2 * t.capacity) (chunk t mt_count i) nt with
    | none => rfl
    | some nt2 => exact ih nt2

/-- The chunks `0 .. n - 1` of equal length `b` make up the range `[0, n * b)`. -/
theorem flatMap_blocks (b : Nat) :
    ∀ n, (List.range n).flatMap (fun i => List.range' (i * b) ((i + 1) * b - i * b)) =
      List.range (n * b) := by
  intro n
  induction n with
  | zero => simp
  | succ n ih =>
    rw [List.range_succ, List.flatMap_append, ih]
    simp only [List.flatMap_cons, List.flatMap_nil, List.append_nil]
    have h1 : (n + 1) * b - n * b = b := by
      rw [Nat.add_mul, Nat.one_mul]; omega
    rw [h1, List.range_eq_range', List.range_eq_range']
    have h2 := List.range'_append 0 (n * b) b 1
    simp only [Nat.zero_add, Nat.one_mul] at h2
    rw [h2]
    congr 1
    rw [Nat.add_mul, Nat.one_mul, Nat.add_comm]

/-- The chunks of the `W` workers, taken in worker order, are the slots
`0, 1, .., capacity - 1` of the old array, each once. -/
theorem flatMap_chunk (t : HashTable) (W : Nat) (hW : 0 < W) :
    (List.range W).flatMap (chunk t W) = List.range t.capacity := by
  obtain ⟨n, rfl⟩ : ∃ n, W = n + 1 := ⟨W - 1, by omega⟩
  rw [List.range_succ, List.flatMap_append]
  have hfirst : (List.range n).flatMap (chunk t (n + 1)) =
      (List.range n).flatMap (fun i =>
        List.range' (i * (t.capacity / (n + 1)))
          ((i + 1) * (t.capacity / (n + 1)) - i * (t.capacity / (n + 1)))) := by
    apply List.flatMap_congr
    intro i hi
    have hi2 : i ≠ n + 1 - 1 := by
      have := List.mem_range.mp hi
      omega
    simp only [chunk, migrator_args, if_neg hi2]
  rw [hfirst, flatMap_blocks]
  simp only [List.flatMap_cons, List.flatMap_nil, List.append_nil, chunk, migrator_args,
    Nat.add_sub_cancel, if_true]
  have hle : n * (t.capacity / (n + 1)) ≤ t.capacity := by
    calc n * (t.capacity / (n + 1)) ≤ (n + 1) * (t.capacity / (n + 1)) :=
          Nat.mul_le_mul_right _ (Nat.le_succ n)
      _ ≤ t.capacity := Nat.mul_div_le _ _
  rw [List.range_eq_range', List.range_eq_range']
  have h2 := List.range'_append 0 (n * (t.capacity / (n + 1)))
    (t.capacity - n * (t.capacity / (n + 1))) 1
  simp only [Nat.zero_add, Nat.one_mul] at h2
  rw [h2]
  congr 1
  omega

theorem map_range_getElem? (l : List (Option Pair)) :
    (List.range l.length).map (fun i => l[i]?) = l.map some := by
  apply List.ext_getElem?
  intro n
  by_cases hn : n < l.length
  · simp [List.getElem?_range hn, List.getElem?_eq_getElem hn]
  · have h1 : l.length ≤ n := by omega
    simp [List.getElem?_eq_none, h1]

theorem filterMap_range_join (l : List (Option Pair)) :
    (List.range l.length).filterMap (fun i => (l[i]?).join) = entries l := by
  have h : (fun i : Nat => (l[i]?).join) = Option.join ∘ (fun i : Nat => l[i]?) := rfl
  rw [h, ← List.filterMap_map, map_range_getElem?, List.filterMap_map]
  unfold entries
  congr 1

/-- Migrating distinct old slots, in any order, never fails and keeps `MigInv`. -/
theorem migrate_list_spec (H : Hash) (old : List (Option Pair)) (c2 : Nat)
    (hc2 : old.length < c2)
    (huniq : ∀ (i j : Nat) (p q : Pair), old[i]? = some (some p) →
      old[j]? = some (some q) → p.key = q.key → i = j) :
    ∀ (idxs S : List Nat) (nt : List (Option Pair)), (S ++ idxs).Nodup →
      (∀ i ∈ S ++ idxs, i < old.length) → MigInv H old nt c2 S →
      ∃ nt2, migrate_list H old c2 idxs nt = some nt2 ∧ MigInv H old nt2 c2 (S ++ idxs) := by
  intro idxs
  induction idxs with
  | nil =>
    intro S nt _ _ hinv
    exact ⟨nt, rfl, by simpa using hinv⟩
  | cons i rest ih =>
    intro S nt hnd hlt hinv
    have hassoc : S ++ i :: rest = (S ++ [i]) ++ rest := by simp
    have hi : i < old.length := hlt i (by simp)
    have hiS : i ∉ S := by
      intro hmem
      have := (List.nodup_append.mp hnd).2.2
      exact this hmem (List.mem_cons_self i rest) 
    rw [migrate_list_cons, List.getElem?_eq_getElem hi]
    cases hv : old[i] with
    | none =>
      simp only
      have hinv2 : MigInv H old nt c2 (S ++ [i]) := by
        refine ⟨hinv.len, hinv.chain, ?_⟩
        simpa [List.filterMap_append, List.getElem?_eq_getElem hi, hv] using hinv.perm
      rw [hassoc]
      exact ih (S ++ [i]) nt (by rw [← hassoc]; exact hnd) (by rw [← hassoc]; exact hlt) hinv2
    | some p =>
      simp only
      have hslot : old[i]? = some (some p) := by rw [List.getElem?_eq_getElem hi, hv]
      -- the new array still has an empty slot
      have hSlen : S.length < old.length := by
        have h1 : (S ++ i :: rest).length ≤ (List.range old.length).length :=
          (List.subperm_of_subset hnd (fun x hx => List.mem_range.mpr (hlt x hx))).length_le
        simp only [List.length_append, List.length_cons, List.length_range] at h1
        omega
      have hroom : (entries nt).length < nt.length := by
        have h1 := hinv.perm.length_eq
        have h2 := List.length_filterMap_le (fun i => (old[i]?).join) S
        rw [hinv.len]
        omega
      obtain ⟨j, hj, hjn⟩ := exists_empty_slot nt hroom
      obtain ⟨d, hd, hocc, hemp⟩ := first_empty nt c2 (H.fn p.key c2) hinv.len
        ⟨j, by rw [← hinv.len]; exact hj, hjn⟩
      -- the entries met on the walk come from other old slots, so have other keys
      have hch : Chain nt c2 p.key (H.fn p.key c2) d := by
        intro e he
        obtain ⟨r, hr⟩ := hocc e he
        refine ⟨r, hr, ?_⟩
        intro hrk
        have hmem : r ∈ entries nt := (mem_entries_iff nt r).mpr ⟨_, hr⟩
        obtain ⟨i2, hi2S, hi2⟩ := List.mem_filterMap.mp (hinv.perm.mem_iff.mp hmem)
        have hi2slot : old[i2]? = some (some r) := Option.join_eq_some.mp hi2
        have : i2 = i := huniq i2 i r p hi2slot hslot hrk
        exact hiS (this ▸ hi2S)
      rw [migrate_loop_place nt c2 p d c2 _ (chain_occ hch) hemp hd]
      simp only
      have hinv2 : MigInv H old (nt.set ((H.fn p.key c2 + d) % c2) (some p)) c2 (S ++ [i]) := by
        refine ⟨by simp [hinv.len], probeChain_set hinv.chain hinv.len p d hd hch hemp, ?_⟩
        have h1 := entries_set_perm nt _ p hemp
        have h2 : (S ++ [i]).filterMap (fun i => (old[i]?).join) =
            S.filterMap (fun i => (old[i]?).join) ++ [p] := by
          simp [List.filterMap_append, hslot]
        rw [h2]
        exact h1.trans ((List.Perm.cons p hinv.perm).trans (List.perm_append_singleton p _).symm)
      rw [hassoc]
      exact ih (S ++ [i]) _ (by rw [← hassoc]; exact hnd) (by rw [← hassoc]; exact hlt) hinv2

/-- A grow of a well-formed table, its new array all empty and its workers run
in any order, succeeds when the doubled capacity is an `int`: the new table is
well formed and holds exactly the entries of the old one. -/
theorem grow_spec (H : Hash) (s : Server) (order : List Nat) (ht : TableInv H s.table)
    (hW : 0 < s.mt_count) (horder : order.Perm (List.range s.mt_count))
    (hint : 2 * s.table.capacity ≤ INT_MAX) :
    ∃ nt, grow H zeroed order s =
        some { s with
          table := { table := nt, size := s.table.size, capacity := 2 * s.table.capacity },
          isMigration := false } ∧
      TableInv H { table := nt, size := s.table.size, capacity := 2 * s.table.capacity } ∧
      (entries nt).Perm (entries s.table.table) := by
  have hflat : (order.flatMap (chunk s.table s.mt_count)).Perm (List.range s.table.capacity) := by
    rw [← flatMap_chunk s.table s.mt_count hW]
    exact horder.flatMap_right _
  have hinit : MigInv H s.table.table (malloc_slots zeroed (2 * s.table.capacity))
      (2 * s.table.capacity) [] := by
    rw [malloc_slots_zeroed]
    exact ⟨by simp, probeChain_replicate H _ _, by simp [entries_replicate_none]⟩
  obtain ⟨nt, hnt, hinv⟩ := migrate_list_spec H s.table.table (2 * s.table.capacity)
    (by have := ht.len; have := ht.cap_pos; omega)
    (fun i j p q hp hq hk => probeChain_unique ht.chain hp hq hk)
    (order.flatMap (chunk s.table s.mt_count)) [] _
    (by simpa using hflat.nodup_iff.mpr (List.nodup_range _))
    (by
      intro i hi
      have := List.mem_range.mp (hflat.mem_iff.mp (by simpa using hi))
      rw [ht.len]; exact this)
    hinit
  have hperm : (entries nt).Perm (entries s.table.table) := by
    have h1 := hinv.perm
    simp only [List.nil_append] at h1
    have h2 := hflat.filterMap (fun i => (s.table.table[i]?).join)
    rw [← ht.len, filterMap_range_join] at h2
    exact h1.trans h2
  refine ⟨nt, ?_, ?_, hperm⟩
  · unfold grow
    rw [if_neg (show ¬ s.mt_count = 0 by omega),
      if_neg (show ¬ 2 * s.table.capacity > INT_MAX by omega),
      run_migrators_eq_list H s.table s.mt_count ht.cap_pos, hnt]
  · refine ⟨hinv.len, ?_, hinv.chain, ?_⟩
    · show 0 < 2 * s.table.capacity
      have := ht.cap_pos
      omega
    simp only [hperm.length_eq]
    exact ht.count

/-! ## The invariant of a sequential run -/

theorem inv_room {H : Hash} {s : Server} (h : Inv H s) : s.table.size < s.table.capacity := by
  have := h.load
  have := h.table.cap_pos
  omega

theorem init_server_inv (H : Hash) (st_count cap : Nat) (hn : 0 < st_count) (hs : 0 < cap) :
    Inv H (init_server st_count cap) := by
  refine ⟨⟨?_, ?_, ?_, ?_⟩, rfl, hn, ?_⟩
  · simp [init_server]
  · simp only [init_server]
    split <;> omega
  · exact probeChain_replicate H _ _
  · simp [init_server, entries_replicate_none]
  · simp [init_server]

theorem get_of_mem {H : Hash} {s : Server} (h : TableInv H s.table) {p : Pair}
    (hp : p ∈ entries s.table.table) : get H s p.key = some p.val := by
  obtain ⟨j, hj⟩ := (mem_entries_iff _ _).mp hp
  unfold get
  rw [if_neg (by have := h.cap_pos; omega)]
  exact get_loop_present h hj

theorem get_of_not_mem {H : Hash} {s : Server} (h : TableInv H s.table)
    (hroom : s.table.size < s.table.capacity) {k : Nat}
    (hk : k ∉ keys s.table.table) : get H s k = some FAILURE := by
  unfold get
  rw [if_neg (by have := h.cap_pos; omega)]
  exact get_loop_absent h hroom hk

theorem get_present {H : Hash} {s : Server} (h : Inv H s) {p : Pair}
    (hp : p ∈ entries s.table.table) : get H s p.key = some p.val :=
  get_of_mem h.table hp

theorem get_absent {H : Hash} {s : Server} (h : Inv H s) {k : Nat}
    (hk : k ∉ keys s.table.table) : get H s k = some FAILURE :=
  get_of_not_mem h.table (inv_room h) hk

/-- A lookup of a key the array does not hold can only return `FAILURE`. -/
theorem get_loop_absent_result (tbl : List (Option Pair)) (c k : Nat)
    (hk : k ∉ keys tbl) :
    ∀ (fuel i r : Nat), get_loop tbl c k fuel i = some r → r = FAILURE := by
  intro fuel
  induction fuel with
  | zero => intro i r h; simp [get_loop] at h
  | succ f ih =>
    intro i r h
    unfold get_loop at h
    cases hv : tbl[i % c]? with
    | none => rw [hv] at h; simp at h
    | some slot =>
      rw [hv] at h
      cases slot with
      | none => simp at h; exact h.symm
      | some curr =>
        simp only at h
        have hne : curr.key ≠ k := fun heq =>
          hk ((mem_keys_iff _ _).mpr ⟨_, curr, hv, heq⟩)
        rw [if_neg hne] at h
        exact ih _ r h

theorem insert_unfold (H : Hash) (garbage : Nat → Option Pair) (order : List Nat)
    (s : Server) (k v : Nat) (t1 : HashTable) (hidle : s.isMigration = false)
    (hcap : 0 < s.table.capacity)
    (hloop : insert_loop s.table k ⟨k, v⟩ s.table.capacity (H.fn k s.table.capacity) =
      some (some t1)) :
    insert H garbage order s k v =
      if over_load t1.size t1.capacity then
        (grow H garbage order { s with table := t1 }).map (fun s2 => (SUCCESS, s2))
      else some (SUCCESS, { s with table := t1 }) := by
  unfold insert
  rw [hidle, if_neg (by simp), if_neg (show ¬ s.table.capacity = 0 by omega), hloop]
  simp only
  split
  · cases hg : grow H garbage order
      { table := t1, isMigration := false, mt_count := s.mt_count } <;> rfl
  · rfl

/-- A duplicate insert returns `FAILURE` and leaves the state as it is. -/
theorem insert_present {H : Hash} {s : Server} (h : Inv H s) {k : Nat}
    (hk : k ∈ keys s.table.table) (garbage : Nat → Option Pair) (order : List Nat) (v : Nat) :
    insert H garbage order s k v = some (FAILURE, s) := by
  unfold insert
  rw [h.idle, if_neg (by simp), if_neg (show ¬ s.table.capacity = 0 by
    have := h.table.cap_pos; omega), insert_loop_present h.table hk]

theorem grow_some_int (H : Hash) (garbage : Nat → Option Pair) (order : List Nat)
    (s s2 : Server) (h : grow H garbage order s = some s2) :
    2 * s.table.capacity ≤ INT_MAX := by
  unfold grow at h
  split at h
  · simp at h
  · split at h
    · simp at h
    · omega

theorem insert_absent {H : Hash} {s : Server} (h : Inv H s) {order : List Nat}
    (horder : order.Perm (List.range s.mt_count)) {k : Nat}
    (hk : k ∉ keys s.table.table) (v : Nat)
    (hint : over_load (s.table.size + 1) s.table.capacity = true →
      2 * s.table.capacity ≤ INT_MAX) :
    ∃ t1 s2, Inserted H order s k v t1 s2 := by
  obtain ⟨t1, hloop, ht1, hcap1, hsize1, hperm1⟩ := insert_loop_absent h.table (inv_room h) hk v
  have hcall := insert_unfold H zeroed order s k v t1 h.idle h.table.cap_pos hloop
  rw [hcap1, hsize1] at hcall
  by_cases hover : over_load (s.table.size + 1) s.table.capacity = true
  · have hint2 : 2 * t1.capacity ≤ INT_MAX := by rw [hcap1]; exact hint hover
    obtain ⟨nt, hgrow, hinv, hperm⟩ :=
      grow_spec H { s with table := t1 } order ht1 h.workers horder hint2
    rw [if_pos hover, hgrow] at hcall
    have hover2 : s.table.capacity < 2 * (s.table.size + 1) := by
      simpa [over_load] using hover
    have hcp := h.table.cap_pos
    have hld := h.load
    refine ⟨t1, _, hloop, ht1, hcap1, hsize1, hperm1, hcall, ⟨hinv, rfl, h.workers, ?_⟩,
      hperm, hsize1, ?_, rfl, fun _ => hgrow⟩
    · show 2 * t1.size ≤ 2 * t1.capacity
      omega
    · rw [if_pos hover]
      show 2 * t1.capacity = _
      rw [hcap1]
  · rw [if_neg hover] at hcall
    have hover2 : ¬ s.table.capacity < 2 * (s.table.size + 1) := by
      simpa [over_load] using hover
    refine ⟨t1, _, hloop, ht1, hcap1, hsize1, hperm1, hcall, ⟨ht1, h.idle, h.workers, ?_⟩,
      List.Perm.refl _, hsize1, ?_, rfl, fun hc => absurd hc hover⟩
    · show 2 * t1.size ≤ t1.capacity
      omega
    · rw [if_neg hover]
      exact hcap1

/-- What a completed call of `insert` did: either the key was present, the
call returned `FAILURE` and the state is unchanged, or it was absent, the call
returned `SUCCESS` and the state is as `Inserted` describes. -/
theorem insert_step {H : Hash} {s : Server} (h : Inv H s) {order : List Nat}
    (horder : order.Perm (List.range s.mt_count)) {k v r : Nat} {s2 : Server}
    (hcall : insert H zeroed order s k v = some (r, s2)) :
    (k ∈ keys s.table.table ∧ r = FAILURE ∧ s2 = s) ∨
    (k ∉ keys s.table.table ∧ r = SUCCESS ∧ ∃ t1, Inserted H order s k v t1 s2) := by
  by_cases hk : k ∈ keys s.table.table
  · left
    rw [insert_present h hk] at hcall
    simp only [Option.some.injEq, Prod.mk.injEq] at hcall
    exact ⟨hk, hcall.1.symm, hcall.2.symm⟩
  · right
    have hint : over_load (s.table.size + 1) s.table.capacity = true →
        2 * s.table.capacity ≤ INT_MAX := by
      intro hover
      obtain ⟨t1, hloop, _, hcap1, hsize1, _⟩ := insert_loop_absent h.table (inv_room h) hk v
      have hu := insert_unfold H zeroed order s k v t1 h.idle h.table.cap_pos hloop
      rw [hcap1, hsize1, if_pos hover, hcall] at hu
      cases hg : grow H zeroed order { s with table := t1 } with
      | none => rw [hg] at hu; simp at hu
      | some s3 =>
        have := grow_some_int H zeroed order _ s3 hg
        simpa [hcap1] using this
    obtain ⟨t1, s3, hins⟩ := insert_absent h horder hk v hint
    have heq := hins.call
    rw [hcall] at heq
    simp only [Option.some.injEq, Prod.mk.injEq] at heq
    obtain ⟨hr, hs⟩ := heq
    subst hs
    exact ⟨hk, hr, t1, hins⟩

theorem trace_inv {H : Hash} {log : List (Nat × Nat)} {s : Server} (h : Trace H log s) :
    Inv H s := by
  induction h with
  | init st_count cap hn hs _ _ => exact init_server_inv H st_count cap hn hs
  | insert k v order r s2 _ horder hcall ih =>
    rcases insert_step ih horder hcall with ⟨_, _, hs⟩ | ⟨_, _, t1, hins⟩
    · rw [hs]; exact ih
    · exact hins.inv
  | lookup k r _ _ ih => exact ih

theorem reachable_inv {H : Hash} {s : Server} (h : Reachable H s) : Inv H s := by
  obtain ⟨log, hlog⟩ := h
  exact trace_inv hlog

/-- Every key in the table was the key of some call of `insert`. -/
theorem trace_keys {H : Hash} {log : List (Nat × Nat)} {s : Server} (h : Trace H log s) :
    ∀ k, k ∈ keys s.table.table → k ∈ log.map Prod.fst := by
  induction h with
  | init st_count cap hn hs _ _ =>
    intro k hk
    simp [init_server, keys, entries_replicate_none] at hk
  | insert k v order r s2 htr horder hcall ih =>
    intro k2 hk2
    rcases insert_step (trace_inv htr) horder hcall with ⟨_, _, hs⟩ | ⟨_, _, t1, hins⟩
    · rw [hs] at hk2
      simp only [List.map_append, List.mem_append]
      exact Or.inl (ih k2 hk2)
    · simp only [List.map_append, List.mem_append, List.map_cons, List.map_nil,
        List.mem_singleton]
      unfold keys at hk2
      obtain ⟨p, hp, hpk⟩ := List.mem_map.mp hk2
      have hp2 := hins.pub_entries.mem_iff.mp (hins.same_entries.mem_iff.mp hp)
      rcases List.mem_cons.mp hp2 with heq | hold
      · right
        rw [← hpk, heq]
      · left
        exact ih k2 (List.mem_map.mpr ⟨p, hold, hpk⟩)
  | lookup k r _ _ ih => exact ih

theorem entries_length_countP (tbl : List (Option Pair)) :
    (entries tbl).length = tbl.countP (fun slot => slot.isSome) := by
  induction tbl with
  | nil => rfl
  | cons a rest ih =>
    cases a with
    | none => simpa [entries] using ih
    | some p =>
      have h3 : entries (some p :: rest) = p :: entries rest := by simp [entries]
      rw [h3]
      simp [ih]

/-- After a successful insert the inserted key is looked up with its value. -/
theorem inserted_get_new {H : Hash} {order : List Nat} {s : Server} {k v : Nat}
    {t1 : HashTable} {s2 : Server} (h : Inserted H order s k v t1 s2) :
    get H s2 k = some v := by
  have hmem : (⟨k, v⟩ : Pair) ∈ entries s2.table.table :=
    h.same_entries.mem_iff.mpr (h.pub_entries.mem_iff.mpr (List.mem_cons_self _ _))
  exact get_present h.inv hmem

theorem inserted_key_mem {H : Hash} {order : List Nat} {s : Server} {k v : Nat}
    {t1 : HashTable} {s2 : Server} (h : Inserted H order s k v t1 s2) :
    k ∈ keys s2.table.table := by
  have hmem : (⟨k, v⟩ : Pair) ∈ entries s2.table.table :=
    h.same_entries.mem_iff.mpr (h.pub_entries.mem_iff.mpr (List.mem_cons_self _ _))
  exact List.mem_map.mpr ⟨_, hmem, rfl⟩

theorem over_load_iff (size capacity : Nat) :
    over_load size capacity = true ↔ capacity < 2 * size := by
  simp [over_load]

/-! ## The contract of `insert` and `get` -/

/-- C1, amended (insert-then-lookup round trip): in every reachable state, for
every key `k` the table does not hold and every value `v`, provided that a grow
triggered by the insert keeps `2 * capacity` within `INT_MAX`, `insert(k, v)`
returns `SUCCESS` (10) and a `get(k)` run afterwards returns `v`, whether or
not the insert grew the table (the worker order is arbitrary and the new array
starts all empty). -/
theorem insert_get_roundtrip (H : Hash) (s : Server) (k v : Nat) (order : List Nat)
    (hs : Reachable H s) (hk : k ∉ keys s.table.table)
    (horder : order.Perm (List.range s.mt_count))
    (hint : s.table.capacity < 2 * (s.table.size + 1) →
      2 * s.table.capacity ≤ INT_MAX) :
    ∃ s2, insert H zeroed order s k v = some (SUCCESS, s2) ∧ get H s2 k = some v := by
  obtain ⟨t1, s2, hins⟩ := insert_absent (reachable_inv hs) horder hk v
    (fun h => hint ((over_load_iff _ _).mp h))
  exact ⟨s2, hins.call, inserted_get_new hins⟩

theorem insert_get_roundtrip_witness :
    Reachable modHash (init_server 1 1) ∧ 5 ∉ keys (init_server 1 1).table.table ∧
    [0].Perm (List.range (init_server 1 1).mt_count) ∧
    ((init_server 1 1).table.capacity < 2 * ((init_server 1 1).table.size + 1) →
      2 * (init_server 1 1).table.capacity ≤ INT_MAX) ∧
    ∃ s2, insert modHash zeroed [0] (init_server 1 1) 5 6 = some (SUCCESS, s2) ∧
      get modHash s2 5 = some 6 :=
  have hr : Reachable modHash (init_server 1 1) :=
    ⟨[], Trace.init 1 1 (by decide) (by decide) (by decide) (by decide)⟩
  ⟨hr, by decide, by decide, by decide,
    insert_get_roundtrip modHash (init_server 1 1) 5 6 [0] hr (by decide) (by decide)
      (by decide)⟩

/-- C2, amended (first write wins): in every reachable state, for a key `k` the
table does not hold, provided that a grow triggered by the first insert keeps
`2 * capacity` within `INT_MAX`, `insert(k, v1)` returns `SUCCESS`, a following
`insert(k, v2)` returns `FAILURE` and changes nothing, and `get(k)` afterwards
returns `v1`. -/
theorem first_write_wins (H : Hash) (s : Server) (k v1 v2 : Nat) (order order2 : List Nat)
    (hs : Reachable H s) (hk : k ∉ keys s.table.table)
    (horder : order.Perm (List.range s.mt_count))
    (hint : s.table.capacity < 2 * (s.table.size + 1) →
      2 * s.table.capacity ≤ INT_MAX) :
    ∃ s2, insert H zeroed order s k v1 = some (SUCCESS, s2) ∧
      insert H zeroed order2 s2 k v2 = some (FAILURE, s2) ∧ get H s2 k = some v1 := by
  obtain ⟨t1, s2, hins⟩ := insert_absent (reachable_inv hs) horder hk v1
    (fun h => hint ((over_load_iff _ _).mp h))
  exact ⟨s2, hins.call, insert_present hins.inv (inserted_key_mem hins) zeroed order2 v2,
    inserted_get_new hins⟩

theorem first_write_wins_witness :
    Reachable modHash (init_server 1 2) ∧ 10 ∉ keys (init_server 1 2).table.table ∧
    [0].Perm (List.range (init_server 1 2).mt_count) ∧
    ((init_server 1 2).table.capacity < 2 * ((init_server 1 2).table.size + 1) →
      2 * (init_server 1 2).table.capacity ≤ INT_MAX) ∧
    ∃ s2, insert modHash zeroed [0] (init_server 1 2) 10 7 = some (SUCCESS, s2) ∧
      insert modHash zeroed [0] s2 10 8 = some (FAILURE, s2) ∧ get modHash s2 10 = some 7 :=
  have hr : Reachable modHash (init_server 1 2) :=
    ⟨[], Trace.init 1 2 (by decide) (by decide) (by decide) (by decide)⟩
  ⟨hr, by decide, by decide, by decide,
    first_write_wins modHash (init_server 1 2) 10 7 8 [0] [0] hr (by decide) (by decide)
      (by decide)⟩

theorem zero_value_state_reachable : Reachable modHash zero_value_state :=
  ⟨[] ++ [(1, 0)],
    Trace.insert 1 0 [0] SUCCESS zero_value_state
      (Trace.init 1 4 (by decide) (by decide) (by decide) (by decide))
      (by decide) (by decide)⟩

/-- C3, as stated, fails: in the reachable state that holds key 1 with the
stored value 0, `get(1)` returns 0, which is also what `get(2)` returns for the
key 2 that was never inserted. -/
theorem get_conflates_stored_zero :
    Reachable modHash zero_value_state ∧
    (⟨1, 0⟩ : Pair) ∈ entries zero_value_state.table.table ∧
    2 ∉ keys zero_value_state.table.table ∧
    get modHash zero_value_state 1 = get modHash zero_value_state 2 :=
  ⟨zero_value_state_reachable, by decide, by decide, by decide⟩

/-- C3, amended: in every reachable state `get` returns the stored value `v`
of a key the table holds and `FAILURE` (0) for a key it does not hold, so the
two results differ exactly when `v` is not 0. -/
theorem get_distinguishes_nonzero (H : Hash) (s : Server) (k v k2 : Nat)
    (hs : Reachable H s) (hk : (⟨k, v⟩ : Pair) ∈ entries s.table.table)
    (hk2 : k2 ∉ keys s.table.table) :
    get H s k = some v ∧ get H s k2 = some FAILURE ∧ (get H s k ≠ get H s k2 ↔ v ≠ 0) := by
  have h1 : get H s k = some v := get_present (reachable_inv hs) hk
  have h2 : get H s k2 = some FAILURE := get_absent (reachable_inv hs) hk2
  refine ⟨h1, h2, ?_⟩
  rw [h1, h2]
  simp [FAILURE]

theorem get_distinguishes_nonzero_witness :
    Reachable modHash zero_value_state ∧
    (⟨1, 0⟩ : Pair) ∈ entries zero_value_state.table.table ∧
    2 ∉ keys zero_value_state.table.table ∧
    (get modHash zero_value_state 1 = some 0 ∧
      get modHash zero_value_state 2 = some FAILURE ∧
      (get modHash zero_value_state 1 ≠ get modHash zero_value_state 2 ↔ 0 ≠ 0)) :=
  ⟨zero_value_state_reachable, by decide, by decide,
    get_distinguishes_nonzero modHash zero_value_state 1 0 2 zero_value_state_reachable
      (by decide) (by decide)⟩

/-- C4 (absent key yields the sentinel): in every state reached from the
initial empty table by a sequence of inserts, `get(k)` returns 0 (`FAILURE`)
for every key `k` that is not the key of one of those inserts. -/
theorem get_never_inserted (H : Hash) (log : List (Nat × Nat)) (s : Server) (k : Nat)
    (hs : Trace H log s) (hk : k ∉ log.map Prod.fst) : get H s k = some 0 :=
  get_absent (trace_inv hs) (fun hmem => hk (trace_keys hs k hmem))

theorem get_never_inserted_witness :
    Trace modHash ([] ++ [(1, 0)]) zero_value_state ∧
    5 ∉ ([] ++ [((1 : Nat), (0 : Nat))]).map Prod.fst ∧
    get modHash zero_value_state 5 = some 0 :=
  have ht : Trace modHash ([] ++ [(1, 0)]) zero_value_state :=
    Trace.insert 1 0 [0] SUCCESS zero_value_state
      (Trace.init 1 4 (by decide) (by decide) (by decide) (by decide))
      (by decide) (by decide)
  ⟨ht, by decide, get_never_inserted modHash _ zero_value_state 5 ht (by decide)⟩

/-- C5 (a duplicate insert is atomic): in every reachable state that holds the
key `k`, `insert(k, v2)` returns `FAILURE` and leaves the whole state as it
was: backing array, `size`, `capacity`, `isMigration` (so no grow runs and the
value stored for `k` stays), whatever the memory content and worker order a
grow would have met. -/
theorem duplicate_insert_unchanged (H : Hash) (garbage : Nat → Option Pair)
    (order : List Nat) (s : Server) (k v2 : Nat) (hs : Reachable H s)
    (hk : k ∈ keys s.table.table) :
    insert H garbage order s k v2 = some (FAILURE, s) :=
  insert_present (reachable_inv hs) hk garbage order v2

theorem duplicate_insert_unchanged_witness :
    Reachable modHash zero_value_state ∧ 1 ∈ keys zero_value_state.table.table ∧
    insert modHash zeroed [0] zero_value_state 1 9 = some (FAILURE, zero_value_state) :=
  ⟨zero_value_state_reachable, by decide,
    duplicate_insert_unchanged modHash zeroed [0] zero_value_state 1 9
      zero_value_state_reachable (by decide)⟩

/-! ## Growing -/

theorem two_keys_state_reachable : Reachable modHash two_keys_state :=
  ⟨[] ++ [(1, 11)] ++ [(2, 22)],
    Trace.insert 2 22 [0, 1] SUCCESS two_keys_state
      (Trace.insert 1 11 [0, 1] SUCCESS one_key_state
        (Trace.init 2 4 (by decide) (by decide) (by decide) (by decide))
        (by decide) (by decide))
      (by decide) (by decide)⟩

theorem three_keys_state_reachable : Reachable modHash three_keys_state := by
  obtain ⟨log, hlog⟩ := two_keys_state_reachable
  exact ⟨log ++ [(3, 33)],
    Trace.insert 3 33 [1, 0] SUCCESS three_keys_state hlog (by decide) (by decide)⟩

/-- C6, amended (grow trigger and doubling): in every reachable state with
capacity `c` and size `s`, provided that a triggered grow keeps `2 * c` within
`INT_MAX`, an insert of a key the table does not hold returns `SUCCESS`,
leaves `size = s + 1`, and leaves `capacity = 2 * c` exactly when
`2 * (s + 1) > c` and `capacity = c` otherwise; the size its probe loop
publishes, before the load test, is already `s + 1`, so the grow does not
change it. -/
theorem insert_grow_trigger (H : Hash) (s : Server) (k v : Nat) (order : List Nat)
    (hs : Reachable H s) (hk : k ∉ keys s.table.table)
    (horder : order.Perm (List.range s.mt_count))
    (hint : s.table.capacity < 2 * (s.table.size + 1) →
      2 * s.table.capacity ≤ INT_MAX) :
    ∃ t1 s2,
      insert_loop s.table k ⟨k, v⟩ s.table.capacity (H.fn k s.table.capacity) =
        some (some t1) ∧
      insert H zeroed order s k v = some (SUCCESS, s2) ∧
      t1.size = s.table.size + 1 ∧ s2.table.size = s.table.size + 1 ∧
      (s2.table.capacity =
        if s.table.capacity < 2 * (s.table.size + 1) then 2 * s.table.capacity
        else s.table.capacity) ∧
      (s2.table.capacity = 2 * s.table.capacity ↔
        s.table.capacity < 2 * (s.table.size + 1)) := by
  obtain ⟨t1, s2, hins⟩ := insert_absent (reachable_inv hs) horder hk v
    (fun h => hint ((over_load_iff _ _).mp h))
  have hcap : s2.table.capacity =
      if s.table.capacity < 2 * (s.table.size + 1) then 2 * s.table.capacity
      else s.table.capacity := by
    rw [hins.capacity]
    simp only [over_load_iff]
  refine ⟨t1, s2, hins.loop, hins.call, hins.pub_size, hins.size, hcap, ?_⟩
  have hpos := (reachable_inv hs).table.cap_pos
  rw [hcap]
  split <;> constructor <;> intro _ <;> omega

theorem insert_grow_trigger_witness :
    Reachable modHash two_keys_state ∧ 3 ∉ keys two_keys_state.table.table ∧
    [1, 0].Perm (List.range two_keys_state.mt_count) ∧
    (two_keys_state.table.capacity < 2 * (two_keys_state.table.size + 1) →
      2 * two_keys_state.table.capacity ≤ INT_MAX) ∧
    ∃ t1 s2,
      insert_loop two_keys_state.table 3 ⟨3, 33⟩ two_keys_state.table.capacity
        (modHash.fn 3 two_keys_state.table.capacity) = some (some t1) ∧
      insert modHash zeroed [1, 0] two_keys_state 3 33 = some (SUCCESS, s2) ∧
      t1.size = two_keys_state.table.size + 1 ∧
      s2.table.size = two_keys_state.table.size + 1 ∧
      (s2.table.capacity =
        if two_keys_state.table.capacity < 2 * (two_keys_state.table.size + 1) then
          2 * two_keys_state.table.capacity
        else two_keys_state.table.capacity) ∧
      (s2.table.capacity = 2 * two_keys_state.table.capacity ↔
        two_keys_state.table.capacity < 2 * (two_keys_state.table.size + 1)) :=
  ⟨two_keys_state_reachable, by decide, by decide, by decide,
    insert_grow_trigger modHash two_keys_state 3 33 [1, 0] two_keys_state_reachable
      (by decide) (by decide) (by decide)⟩

/-- The two boundary scenarios of the trigger, evaluated: capacity 4 with two
workers and keys 1, 2, 3 stays at capacity 4 for the first two inserts and is
at capacity 8 after the third; capacity 2 with one worker and keys 10, 20 is
at capacity 4 after the second insert. -/
theorem grow_trigger_scenarios :
    (insert modHash zeroed [0, 1] (init_server 2 4) 1 11 = some (SUCCESS, one_key_state) ∧
      insert modHash zeroed [0, 1] one_key_state 2 22 = some (SUCCESS, two_keys_state) ∧
      insert modHash zeroed [0, 1] two_keys_state 3 33 = some (SUCCESS, three_keys_state) ∧
      one_key_state.table.capacity = 4 ∧ two_keys_state.table.capacity = 4 ∧
      three_keys_state.table.capacity = 8) ∧
    ((insert modHash zeroed [0] (init_server 1 2) 10 1).map (fun r => r.2.table.capacity) =
        some 2 ∧
      ((insert modHash zeroed [0] (init_server 1 2) 10 1).bind
          (fun r => insert modHash zeroed [0] r.2 20 2)).map (fun r => r.2.table.capacity) =
        some 4) := by
  decide

theorem keys_perm {t1 t2 : List (Option Pair)} (h : (entries t1).Perm (entries t2))
    (k : Nat) : k ∈ keys t1 ↔ k ∈ keys t2 :=
  (h.map Pair.key).mem_iff

theorem half_full_state_reachable : Reachable modHash half_full_state :=
  ⟨[] ++ [(10, 1)],
    Trace.insert 10 1 [0] SUCCESS half_full_state
      (Trace.init 1 2 (by decide) (by decide) (by decide) (by decide))
      (by decide) (by decide)⟩

/-- C7, as stated, fails: with capacity 2 and key 10 stored, `insert(20, 2)`
publishes its entry into the last empty slot and then grows.  On the pre-grow
table with that entry included, `get(30)` walks a full array without meeting
key 30 and never returns, while on the post-grow table it returns 0. -/
theorem grow_get_differs_on_full_table :
    Reachable modHash half_full_state ∧ 20 ∉ keys half_full_state.table.table ∧
    insert_loop half_full_state.table 20 ⟨20, 2⟩ half_full_state.table.capacity
      (modHash.fn 20 half_full_state.table.capacity) = some (some full_table) ∧
    grow modHash zeroed [0] { half_full_state with table := full_table } =
      some regrown_state ∧
    insert modHash zeroed [0] half_full_state 20 2 = some (SUCCESS, regrown_state) ∧
    get modHash { half_full_state with table := full_table } 30 = none ∧
    get modHash regrown_state 30 = some 0 := by
  refine ⟨half_full_state_reachable, ?_, ?_, ?_, ?_, ?_, ?_⟩ <;> decide

/-! ## Invariants of the reachable states -/

/-- C8 (no duplicate keys): in every reachable state, two occupied slots of the
active backing array whose entries have the same key are the same slot. -/
theorem no_duplicate_keys (H : Hash) (s : Server) (i j : Nat) (p q : Pair)
    (hs : Reachable H s) (hp : s.table.table[i]? = some (some p))
    (hq : s.table.table[j]? = some (some q)) (hk : p.key = q.key) : i = j :=
  probeChain_unique (reachable_inv hs).table.chain hp hq hk

theorem no_duplicate_keys_witness :
    Reachable modHash three_keys_state ∧
    three_keys_state.table.table[2]? = some (some ⟨2, 22⟩) ∧
    three_keys_state.table.table[1 + 1]? = some (some ⟨2, 22⟩) ∧
    (⟨2, 22⟩ : Pair).key = (⟨2, 22⟩ : Pair).key ∧ 2 = 1 + 1 :=
  ⟨three_keys_state_reachable, by decide, by decide, rfl,
    no_duplicate_keys modHash three_keys_state 2 (1 + 1) ⟨2, 22⟩ ⟨2, 22⟩
      three_keys_state_reachable (by decide) (by decide) rfl⟩

/-- C9 (load factor bound): whenever an insert into a reachable state has grown
the table and returns, it returns `SUCCESS`, the capacity is twice the old one
and the table satisfies `2 * size ≤ capacity` with that new capacity; the
initial capacity may be any positive number, 1 and 2 included. -/
theorem load_factor_after_grow (H : Hash) (s : Server) (k v : Nat) (order : List Nat)
    (r : Nat) (s2 : Server) (hs : Reachable H s)
    (horder : order.Perm (List.range s.mt_count))
    (hcall : insert H zeroed order s k v = some (r, s2))
    (hgrew : s2.table.capacity ≠ s.table.capacity) :
    r = SUCCESS ∧ s2.table.capacity = 2 * s.table.capacity ∧
      2 * s2.table.size ≤ s2.table.capacity := by
  rcases insert_step (reachable_inv hs) horder hcall with ⟨_, _, h2⟩ | ⟨_, hr, t1, hins⟩
  · rw [h2] at hgrew
    exact absurd rfl hgrew
  · refine ⟨hr, ?_, hins.inv.load⟩
    have hcap := hins.capacity
    split at hcap
    · exact hcap
    · exact absurd hcap hgrew

theorem load_factor_after_grow_witness :
    Reachable modHash (init_server 1 1) ∧
    [0].Perm (List.range (init_server 1 1).mt_count) ∧
    insert modHash zeroed [0] (init_server 1 1) 5 6 = some (SUCCESS, grown_from_one) ∧
    grown_from_one.table.capacity ≠ (init_server 1 1).table.capacity ∧
    (SUCCESS = SUCCESS ∧
      grown_from_one.table.capacity = 2 * (init_server 1 1).table.capacity ∧
      2 * grown_from_one.table.size ≤ grown_from_one.table.capacity) :=
  have hr : Reachable modHash (init_server 1 1) :=
    ⟨[], Trace.init 1 1 (by decide) (by decide) (by decide) (by decide)⟩
  ⟨hr, by decide, by decide, by decide,
    load_factor_after_grow modHash (init_server 1 1) 5 6 [0] SUCCESS grown_from_one hr
      (by decide) (by decide) (by decide)⟩

/-- C10 (size counts occupied slots): in every reachable state `size` is the
number of non-empty slots of the active backing array and is at most
`capacity`; a completed insert, successful or duplicate, growing or not,
never leaves a smaller `size`; a grow leaves `size` as it is.  (`get` is a
function of the state and writes nothing.) -/
theorem size_counts_occupied (H : Hash) (s : Server) (hs : Reachable H s) :
    s.table.size = s.table.table.countP (fun slot => slot.isSome) ∧
    s.table.size ≤ s.table.capacity ∧
    (∀ k v order r s2, order.Perm (List.range s.mt_count) →
      insert H zeroed order s k v = some (r, s2) → s.table.size ≤ s2.table.size) ∧
    (∀ garbage order s1 s2, grow H garbage order s1 = some s2 →
      s2.table.size = s1.table.size) := by
  refine ⟨?_, tableInv_size_le (reachable_inv hs).table, ?_, ?_⟩
  · rw [(reachable_inv hs).table.count, entries_length_countP]
  · intro k v order r s2 horder hcall
    rcases insert_step (reachable_inv hs) horder hcall with ⟨_, _, h2⟩ | ⟨_, _, t1, hins⟩
    · rw [h2]
    · rw [hins.size]; omega
  · intro garbage order s1 s2 hg
    unfold grow at hg
    split at hg
    · simp at hg
    · split at hg
      · simp at hg
      · split at hg
        · simp at hg
        · simp only [Option.some.injEq] at hg
          rw [← hg]

theorem size_counts_occupied_witness :
    Reachable modHash three_keys_state ∧
    (three_keys_state.table.size =
        three_keys_state.table.table.countP (fun slot => slot.isSome) ∧
      three_keys_state.table.size ≤ three_keys_state.table.capacity ∧
      (∀ k v order r s2, order.Perm (List.range three_keys_state.mt_count) →
        insert modHash zeroed order three_keys_state k v = some (r, s2) →
        three_keys_state.table.size ≤ s2.table.size) ∧
      (∀ garbage order s1 s2, grow modHash garbage order s1 = some s2 →
        s2.table.size = s1.table.size)) :=
  ⟨three_keys_state_reachable,
    size_counts_occupied modHash three_keys_state three_keys_state_reachable⟩

/-! ## Termination of the probe loops -/

theorem grow_some_migrators (H : Hash) (garbage : Nat → Option Pair) (order : List Nat)
    (s s2 : Server) (h : grow H garbage order s = some s2) :
    run_migrators H s.table s.mt_count order (malloc_slots garbage (2 * s.table.capacity)) =
      some s2.table.table := by
  unfold grow at h
  split at h
  · simp at h
  · split at h
    · simp at h
    · split at h
      · simp at h
      · rename_i nt hnt
        simp only [Option.some.injEq] at h
        rw [hnt, ← h]

/-- C17, evaluated on the code: the new array is what `Malloc` returned, of
length `2 * c` but not cleared (only `init_server` calls `memset`).  With a
stale pointer in the allocated memory, the array handed to the workers has an
occupied slot, the grown table of `insert(4, 6)` holds the phantom key 99 in
it, `get(99)` returns 7 for a key that was never inserted, and `size` (1) no
longer counts the occupied slots (2). -/
theorem fresh_array_keeps_memory_content :
    (malloc_slots stale_memory (2 * 1)).length = 2 * 1 ∧
    malloc_slots stale_memory (2 * 1) = [none, some ⟨99, 7⟩] ∧
    insert modHash stale_memory [0] (init_server 1 1) 4 6 = some (SUCCESS, phantom_state) ∧
    get modHash phantom_state 99 = some 7 ∧
    phantom_state.table.size = 1 ∧
    phantom_state.table.table.countP (fun slot => slot.isSome) = 2 := by
  decide

theorem migrator_args_start_le (t : HashTable) (W i : Nat) (hi : i < W) :
    (migrator_args t W i).start ≤ (migrator_args t W i).stop ∧
      (migrator_args t W i).stop ≤ t.capacity := by
  have hb : W * (t.capacity / W) ≤ t.capacity := Nat.mul_div_le _ _
  simp only [migrator_args]
  split
  · constructor
    · calc i * (t.capacity / W) ≤ W * (t.capacity / W) :=
            Nat.mul_le_mul_right _ (by omega)
        _ ≤ t.capacity := hb
    · exact Nat.le_refl _
  · constructor
    · exact Nat.mul_le_mul_right _ (by omega)
    · calc (i + 1) * (t.capacity / W) ≤ W * (t.capacity / W) :=
            Nat.mul_le_mul_right _ (by omega)
        _ ≤ t.capacity := hb

/-- A worker's chunk ends where the chunk of every later worker starts, or
before. -/
theorem migrator_args_ordered (t : HashTable) (W i i2 : Nat) (h : i < i2) (h2 : i2 < W) :
    (migrator_args t W i).stop ≤ (migrator_args t W i2).start := by
  simp only [migrator_args]
  rw [if_neg (by omega)]
  exact Nat.mul_le_mul_right _ (by omega)

/-- C18 (chunk partition): for every old capacity `c` and worker count
`W ≥ 1`, the ranges `[start_i, end_i)` the leader computes start at 0, are
contiguous, end at `c`, lie inside `[0, c)`, and every old slot index lies in
the range of exactly one worker; the chunks taken in worker order list the
indices `0 .. c - 1`, each once. -/
theorem chunk_partition (t : HashTable) (W : Nat) (hW : 1 ≤ W) :
    (migrator_args t W 0).start = 0 ∧
    (migrator_args t W (W - 1)).stop = t.capacity ∧
    (∀ i, i < W → (migrator_args t W i).start ≤ (migrator_args t W i).stop ∧
      (migrator_args t W i).stop ≤ t.capacity) ∧
    (∀ i, i + 1 < W → (migrator_args t W i).stop = (migrator_args t W (i + 1)).start) ∧
    (∀ j, j < t.capacity → ∃ i, (i < W ∧ (migrator_args t W i).start ≤ j ∧
        j < (migrator_args t W i).stop) ∧
      ∀ i2, i2 < W ∧ (migrator_args t W i2).start ≤ j ∧ j < (migrator_args t W i2).stop →
        i2 = i) ∧
    (List.range W).flatMap (chunk t W) = List.range t.capacity := by
  have hflat := flatMap_chunk t W hW
  refine ⟨by simp [migrator_args], by simp [migrator_args],
    fun i hi => migrator_args_start_le t W i hi, ?_, ?_, hflat⟩
  · intro i hi
    simp only [migrator_args]
    rw [if_neg (by omega)]
  · intro j hj
    have hmem : j ∈ (List.range W).flatMap (chunk t W) := by
      rw [hflat]; exact List.mem_range.mpr hj
    obtain ⟨i, hiW, hji⟩ := List.mem_flatMap.mp hmem
    have hiW2 := List.mem_range.mp hiW
    have hji2 := List.mem_range'_1.mp hji
    have hle := (migrator_args_start_le t W i hiW2).1
    refine ⟨i, ⟨hiW2, hji2.1, by omega⟩, ?_⟩
    rintro i2 ⟨hi2W, hs2, he2⟩
    rcases Nat.lt_trichotomy i2 i with hlt | heq | hgt
    · have := migrator_args_ordered t W i2 i hlt hiW2
      omega
    · exact heq
    · have := migrator_args_ordered t W i i2 hgt hi2W
      omega

theorem chunk_partition_witness :
    1 ≤ 7 ∧
    ((migrator_args (HashTable.mk (List.replicate 5 none) 0 5) 7 0).start = 0 ∧
    (migrator_args (HashTable.mk (List.replicate 5 none) 0 5) 7 (7 - 1)).stop =
      (HashTable.mk (List.replicate 5 none) 0 5).capacity ∧
    (∀ i, i < 7 →
      (migrator_args (HashTable.mk (List.replicate 5 none) 0 5) 7 i).start ≤
        (migrator_args (HashTable.mk (List.replicate 5 none) 0 5) 7 i).stop ∧
      (migrator_args (HashTable.mk (List.replicate 5 none) 0 5) 7 i).stop ≤
        (HashTable.mk (List.replicate 5 none) 0 5).capacity) ∧
    (∀ i, i + 1 < 7 →
      (migrator_args (HashTable.mk (List.replicate 5 none) 0 5) 7 i).stop =
        (migrator_args (HashTable.mk (List.replicate 5 none) 0 5) 7 (i + 1)).start) ∧
    (∀ j, j < (HashTable.mk (List.replicate 5 none) 0 5).capacity →
      ∃ i, (i < 7 ∧
        (migrator_args (HashTable.mk (List.replicate 5 none) 0 5) 7 i).start ≤ j ∧
        j < (migrator_args (HashTable.mk (List.replicate 5 none) 0 5) 7 i).stop) ∧
      ∀ i2, i2 < 7 ∧
        (migrator_args (HashTable.mk (List.replicate 5 none) 0 5) 7 i2).start ≤ j ∧
        j < (migrator_args (HashTable.mk (List.replicate 5 none) 0 5) 7 i2).stop →
        i2 = i) ∧
    (List.range 7).flatMap (chunk (HashTable.mk (List.replicate 5 none) 0 5) 7) =
      List.range (HashTable.mk (List.replicate 5 none) 0 5).capacity) :=
  ⟨by decide, chunk_partition (HashTable.mk (List.replicate 5 none) 0 5) 7 (by decide)⟩

/-- The chunks of two boundary cases, evaluated: 5 slots and 7 workers (more
workers than slots: the last worker takes everything), and 7 slots and 3
workers (the last worker takes the remainder). -/
theorem chunk_partition_scenarios :
    (List.range 7).map
        (fun i => ((migrator_args (HashTable.mk [] 0 5) 7 i).start,
          (migrator_args (HashTable.mk [] 0 5) 7 i).stop)) =
      [(0, 0), (0, 0), (0, 0), (0, 0), (0, 0), (0, 0), (0, 5)] ∧
    (List.range 3).map
        (fun i => ((migrator_args (HashTable.mk [] 0 7) 3 i).start,
          (migrator_args (HashTable.mk [] 0 7) 3 i).stop)) =
      [(0, 2), (2, 4), (4, 7)] := by
  decide

/-! ## The probe-chain invariant of the reachable states -/

/-- The distance of slot `j` from the start `h` of a cyclic walk over `c`
slots. -/
theorem walk_distance (c h d j : Nat) (hh : h < c) (hd : d < c) (hj : (h + d) % c = j) :
    (j + c - h) % c = d := by
  by_cases hlt : h + d < c
  · rw [Nat.mod_eq_of_lt hlt] at hj
    have h1 : j + c - h = d + c := by omega
    rw [h1, Nat.add_mod_right, Nat.mod_eq_of_lt hd]
  · have h2 : (h + d) % c = h + d - c := by
      rw [Nat.mod_eq_sub_mod (by omega), Nat.mod_eq_of_lt (by omega)]
    rw [h2] at hj
    have h1 : j + c - h = d := by omega
    rw [h1, Nat.mod_eq_of_lt hd]

/-- C19 (probe-chain invariant): in every reachable state (the initial one, and
the one after every insert, duplicate insert and grow with its workers run in
any order), for every occupied slot `j` of the active backing array, holding an
entry with key `k`, the cyclic walk from `h(k, capacity)` reaches `j` after
`(j - h(k, capacity)) mod capacity` steps, and every slot it meets before `j`
is occupied by an entry with a key other than `k`. -/
theorem probe_chain_invariant (H : Hash) (s : Server) (j : Nat) (p : Pair)
    (hs : Reachable H s) (hp : s.table.table[j]? = some (some p)) :
    (H.fn p.key s.table.capacity + (j + s.table.capacity - H.fn p.key s.table.capacity) %
        s.table.capacity) % s.table.capacity = j ∧
    ∀ e, e < (j + s.table.capacity - H.fn p.key s.table.capacity) % s.table.capacity →
      ∃ q, s.table.table[(H.fn p.key s.table.capacity + e) % s.table.capacity]? =
          some (some q) ∧ q.key ≠ p.key := by
  have hinv := reachable_inv hs
  obtain ⟨d, hd, hdj, hch⟩ := hinv.table.chain j p hp
  have hdist := walk_distance s.table.capacity (H.fn p.key s.table.capacity) d j
    (H.lt _ _ hinv.table.cap_pos) hd hdj
  rw [hdist]
  exact ⟨hdj, hch⟩

theorem collision_state_reachable : Reachable modHash collision_state :=
  ⟨[] ++ [(1, 11)] ++ [(5, 55)],
    Trace.insert 5 55 [0, 1] SUCCESS collision_state
      (Trace.insert 1 11 [0, 1] SUCCESS one_key_state
        (Trace.init 2 4 (by decide) (by decide) (by decide) (by decide))
        (by decide) (by decide))
      (by decide) (by decide)⟩

theorem probe_chain_invariant_witness :
    Reachable modHash collision_state ∧
    collision_state.table.table[2]? = some (some ⟨5, 55⟩) ∧
    ((modHash.fn (⟨5, 55⟩ : Pair).key collision_state.table.capacity +
        (2 + collision_state.table.capacity -
          modHash.fn (⟨5, 55⟩ : Pair).key collision_state.table.capacity) %
        collision_state.table.capacity) % collision_state.table.capacity = 2 ∧
    ∀ e, e < (2 + collision_state.table.capacity -
          modHash.fn (⟨5, 55⟩ : Pair).key collision_state.table.capacity) %
        collision_state.table.capacity →
      ∃ q, collision_state.table.table[(modHash.fn (⟨5, 55⟩ : Pair).key
            collision_state.table.capacity + e) % collision_state.table.capacity]? =
          some (some q) ∧ q.key ≠ (⟨5, 55⟩ : Pair).key) :=
  ⟨collision_state_reachable, by decide,
    probe_chain_invariant modHash collision_state 2 ⟨5, 55⟩ collision_state_reachable
      (by decide)⟩

/-! ## A lookup during the installation of the new array -/

theorem pre_swap_state_reachable : Reachable modHash pre_swap_state :=
  ⟨[] ++ [(5, 55)] ++ [(2, 22)],
    Trace.insert 2 22 [0] SUCCESS pre_swap_state
      (Trace.insert 5 55 [0] SUCCESS swap_first_state
        (Trace.init 1 4 (by decide) (by decide) (by decide) (by decide))
        (by decide) (by decide))
      (by decide) (by decide)⟩

/-- C16, evaluated on the code: key 5 is stored with value 55 before
`insert(3, 33)` starts its grow, and a `get(5)` alone returns 55 on the old
array and on the new one.  A `get(5)` that computes its start index with the
old capacity (`5 % 4 = 1`) and loads its slot after the leader's first store,
or after both, reads slot 1 of the new array, which is empty (key 5 sits in
slot `5 % 8 = 5` there), and returns 0. -/
theorem get_misses_key_during_install :
    Reachable modHash pre_swap_state ∧
    (⟨5, 55⟩ : Pair) ∈ entries pre_swap_state.table.table ∧
    get modHash pre_swap_state 5 = some 55 ∧
    insert_loop pre_swap_state.table 3 ⟨3, 33⟩ pre_swap_state.table.capacity
      (modHash.fn 3 pre_swap_state.table.capacity) = some (some swap_published) ∧
    run_migrators modHash swap_published pre_swap_state.mt_count [0]
      (malloc_slots zeroed (2 * swap_published.capacity)) = some swap_new_array ∧
    (run_schedule modHash 5 [Actor.reader, Actor.reader, Actor.reader, Actor.leader,
      Actor.leader] swap_start GetPc.start).2 = GetPc.returned 55 ∧
    (run_schedule modHash 5 [Actor.leader, Actor.leader, Actor.reader, Actor.reader,
      Actor.reader, Actor.reader, Actor.reader, Actor.reader, Actor.reader, Actor.reader,
      Actor.reader] swap_start GetPc.start).2 = GetPc.returned 55 ∧
    (run_schedule modHash 5 [Actor.reader, Actor.leader, Actor.leader, Actor.reader,
      Actor.reader] swap_start GetPc.start).2 = GetPc.returned 0 ∧
    (run_schedule modHash 5 [Actor.reader, Actor.leader, Actor.reader, Actor.reader,
      Actor.leader] swap_start GetPc.start).2 = GetPc.returned 0 := by
  refine ⟨pre_swap_state_reachable, ?_, ?_, ?_, ?_, ?_, ?_, ?_, ?_⟩ <;> decide

/-! ## Argument validation -/

/-- C15, evaluated on the code: the test after the option loop is
`st_count == 0 || cap == 0`, so `-n -3 -s 4` and `-n 2 -s -5`, whose parsed
values are negative, make `parse_args` return 0; a missing or zero `-n` or
`-s` makes it return -1. -/
theorem parse_args_accepts_negative :
    parse_args [Opt.n (-3), Opt.s 4] =
      ParseResult.returned 0 { st_count := -3, cap := 4, verbose := 0 } ∧
    parse_args [Opt.n 2, Opt.s (-5)] =
      ParseResult.returned 0 { st_count := 2, cap := -5, verbose := 0 } ∧
    parse_args [Opt.s 4] = ParseResult.returned (-1) { st_count := 0, cap := 4, verbose := 0 } ∧
    parse_args [Opt.n 0, Opt.s 4] =
      ParseResult.returned (-1) { st_count := 0, cap := 4, verbose := 0 } := by
  decide

/-! ## The ring -/

/-- With a cursor below `RING_SIZE`, the 32-bit wrap of `cursor + 1` does not
show in the remainder. -/
theorem next_cursor (N p : Nat) (hM : N ≤ UINT32_MOD) (hp : p < N) :
    (p + 1) % UINT32_MOD % N = (p + 1) % N := by
  by_cases h : p + 1 < UINT32_MOD
  · rw [Nat.mod_eq_of_lt h]
  · have h1 : p + 1 = UINT32_MOD := by omega
    have h2 : N = UINT32_MOD := by omega
    rw [h1, h2, Nat.mod_self, Nat.zero_mod]

theorem ring_submit_some (N : Nat) (r r2 : Ring) (bd : buffer_descriptor)
    (h : ring_submit N r bd = some r2) :
    N ≠ 0 ∧ (r.p_head + 1) % UINT32_MOD % N ≠ r.c_tail ∧ r.p_head < r.buffer.length ∧
      r.p_tail = r.p_head ∧
      r2 = { r with
        p_head := (r.p_head + 1) % UINT32_MOD % N,
        p_tail := (r.p_head + 1) % UINT32_MOD % N,
        buffer := r.buffer.set r.p_head bd } := by
  unfold ring_submit at h
  split at h
  · simp at h
  · split at h
    · simp at h
    · split at h
      · simp at h
      · split at h
        · simp at h
        · rename_i h1 h2 h3 h4
          simp only [Option.some.injEq] at h
          exact ⟨h1, h2, by omega, by simpa using h4, h.symm⟩

theorem ring_get_some (N : Nat) (r r2 : Ring) (bd : buffer_descriptor)
    (h : ring_get N r = some (r2, bd)) :
    N ≠ 0 ∧ r.c_head ≠ r.p_tail ∧ r.buffer[r.c_head]? = some bd ∧ r.c_tail = r.c_head ∧
      r2 = { r with
        c_head := (r.c_head + 1) % UINT32_MOD % N,
        c_tail := (r.c_head + 1) % UINT32_MOD % N } := by
  unfold ring_get at h
  split at h
  · simp at h
  · split at h
    · simp at h
    · split at h
      · simp at h
      · split at h
        · simp at h
        · rename_i h1 h2 _ bd2 hbd h4
          simp only [Option.some.injEq, Prod.mk.injEq] at h
          refine ⟨h1, h2, ?_, by simpa using h4, h.1.symm⟩
          rw [hbd, h.2]

/-- Two slots at different distances below `N` from the same start differ. -/
theorem walk_injective (N c i o : Nat) (hi : i < N) (ho : o < N) (hne : i ≠ o) :
    (c + i) % N ≠ (c + o) % N := by
  intro h
  have h1 : c + i ≡ c + o [MOD N] := h
  exact hne ((Nat.ModEq.add_left_cancel' c h1).eq_of_lt_of_lt hi ho)

theorem init_ring_inv (N : Nat) (hN : 0 < N) : RingInv N [] [] (init_ring N) := by
  refine ⟨by simp [init_ring], rfl, rfl, hN, hN, Nat.le_refl _, hN, ?_, rfl, ?_⟩
  · simp [init_ring]
  · intro i hi
    simp at hi

theorem ring_submit_inv {N : Nat} {ins outs : List buffer_descriptor} {r r2 : Ring}
    {bd : buffer_descriptor} (hN : 0 < N) (hM : N ≤ UINT32_MOD)
    (h : RingInv N ins outs r) (hcall : ring_submit N r bd = some r2) :
    RingInv N (ins ++ [bd]) outs r2 := by
  obtain ⟨_, hnext, hplt, hpt, hr2⟩ := ring_submit_some N r r2 bd hcall
  have hp : r.p_head < N := by rw [h.p_eq]; exact h.p_lt
  rw [next_cursor N r.p_head hM hp] at hnext hr2
  have htail := h.tail
  have hle := h.le
  have hocc := h.occ_lt
  have hnext2 : (r.c_tail + (ins.length - outs.length + 1)) % N = (r.p_head + 1) % N := by
    rw [← Nat.add_assoc, ← Nat.mod_add_mod, htail, h.p_eq]
  have hocc2 : ins.length - outs.length + 1 < N := by
    by_contra hge
    have hfull : ins.length - outs.length + 1 = N := by omega
    rw [hfull, Nat.add_mod_right, Nat.mod_eq_of_lt h.c_lt] at hnext2
    exact hnext hnext2.symm
  subst hr2
  refine ⟨by simp [h.len], rfl, h.c_eq, Nat.mod_lt _ hN, h.c_lt, ?_, ?_, ?_, ?_, ?_⟩
  · simp only [List.length_append, List.length_singleton]; omega
  · simp only [List.length_append, List.length_singleton]; omega
  · simp only [List.length_append, List.length_singleton]
    have : ins.length + 1 - outs.length = ins.length - outs.length + 1 := by omega
    rw [this]
    exact hnext2
  · rw [List.take_append_of_le_length hle]
    exact h.taken
  · intro i hi
    simp only [List.length_append, List.length_singleton] at hi
    by_cases hio : i < ins.length - outs.length
    · have hne : r.p_head ≠ (r.c_tail + i) % N := by
        rw [h.p_eq, ← htail]
        exact (walk_injective N r.c_tail i _ (by omega) hocc (by omega)).symm
      simp only
      rw [List.getElem?_set_ne hne, h.held i hio, List.getElem?_append_left (by omega)]
    · have hio2 : i = ins.length - outs.length := by omega
      have hidx : (r.c_tail + i) % N = r.p_head := by rw [hio2, htail, h.p_eq]
      have hlen : outs.length + i = ins.length := by omega
      simp only
      rw [hidx, List.getElem?_set_self hplt, hlen, List.getElem?_concat_length]

theorem ring_get_inv {N : Nat} {ins outs : List buffer_descriptor} {r r2 : Ring}
    {bd : buffer_descriptor} (hN : 0 < N) (hM : N ≤ UINT32_MOD)
    (h : RingInv N ins outs r) (hcall : ring_get N r = some (r2, bd)) :
    RingInv N ins (outs ++ [bd]) r2 := by
  obtain ⟨_, hne, hbd, hct, hr2⟩ := ring_get_some N r r2 bd hcall
  have hc : r.c_head < N := by rw [h.c_eq]; exact h.c_lt
  rw [next_cursor N r.c_head hM hc] at hr2
  have htail := h.tail
  have hle := h.le
  have hocc := h.occ_lt
  have hpos : 0 < ins.length - outs.length := by
    by_contra hz
    have h0 : ins.length - outs.length = 0 := by omega
    rw [h0, Nat.add_zero, Nat.mod_eq_of_lt h.c_lt] at htail
    exact hne (by rw [h.c_eq, htail])
  have hfirst : ins[outs.length]? = some bd := by
    have := h.held 0 hpos
    rw [Nat.add_zero, Nat.mod_eq_of_lt h.c_lt, ← h.c_eq, hbd] at this
    exact this.symm
  subst hr2
  refine ⟨h.len, h.p_eq, rfl, h.p_lt, Nat.mod_lt _ hN, ?_, ?_, ?_, ?_, ?_⟩
  · simp only [List.length_append, List.length_singleton]; omega
  · simp only [List.length_append, List.length_singleton]; omega
  · simp only [List.length_append, List.length_singleton]
    show ((r.c_head + 1) % N + (ins.length - (outs.length + 1))) % N = r.p_tail
    rw [Nat.mod_add_mod, ← htail, h.c_eq]
    congr 1
    omega
  · simp only [List.length_append, List.length_singleton]
    rw [List.take_add_one, hfirst, ← h.taken]
    rfl
  · intro i hi
    simp only [List.length_append, List.length_singleton] at hi ⊢
    show r.buffer[((r.c_head + 1) % N + i) % N]? = ins[outs.length + 1 + i]?
    rw [Nat.mod_add_mod, h.c_eq]
    have := h.held (i + 1) (by omega)
    rw [show r.c_tail + 1 + i = r.c_tail + (i + 1) by omega,
      show outs.length + 1 + i = outs.length + (i + 1) by omega]
    exact this

theorem ring_trace_inv {N : Nat} {ins outs : List buffer_descriptor} {r : Ring}
    (hN : 0 < N) (hM : N ≤ UINT32_MOD) (h : RingTrace N ins outs r) :
    RingInv N ins outs r := by
  induction h with
  | init => exact init_ring_inv N hN
  | submit bd r2 _ hcall ih => exact ring_submit_inv hN hM ih hcall
  | get bd r2 _ hcall ih => exact ring_get_inv hN hM ih hcall

theorem ring_three_trace :
    RingTrace 4 ([] ++ [first_request] ++ [second_request]) ([] ++ [first_request])
      ring_three :=
  RingTrace.get first_request ring_three
    (RingTrace.submit second_request ring_two
      (RingTrace.submit first_request ring_one RingTrace.init (by decide))
      (by decide))
    (by decide)

/-- C12 (ring FIFO): from a ring initialised by `init_ring`, after any sequence
of completed `ring_submit` and `ring_get` calls, the descriptors returned by
the `ring_get` calls are, in order and field for field, the first ones of the
descriptors passed to `ring_submit`. -/
theorem ring_fifo (N : Nat) (ins outs : List buffer_descriptor) (r : Ring) (hN : 0 < N)
    (hM : N ≤ UINT32_MOD) (h : RingTrace N ins outs r) :
    outs.length ≤ ins.length ∧ outs = ins.take outs.length ∧
      ∀ i, i < outs.length → outs[i]? = ins[i]? := by
  have hinv := ring_trace_inv hN hM h
  refine ⟨hinv.le, hinv.taken, ?_⟩
  intro i hi
  have h1 : outs[i]? = (ins.take outs.length)[i]? := by rw [← hinv.taken]
  rw [h1, List.getElem?_take, if_pos hi]

theorem ring_fifo_witness :
    0 < 4 ∧ 4 ≤ UINT32_MOD ∧
    RingTrace 4 ([] ++ [first_request] ++ [second_request]) ([] ++ [first_request])
      ring_three ∧
    (([] ++ [first_request]).length ≤ ([] ++ [first_request] ++ [second_request]).length ∧
      [] ++ [first_request] =
        ([] ++ [first_request] ++ [second_request]).take ([] ++ [first_request]).length ∧
      ∀ i, i < ([] ++ [first_request]).length →
        ([] ++ [first_request])[i]? = ([] ++ [first_request] ++ [second_request])[i]?) :=
  ⟨by decide, by decide, ring_three_trace,
    ring_fifo 4 _ _ ring_three (by decide) (by decide) ring_three_trace⟩

/-- C13 (ring occupancy and capacity): in every ring state reached from
`init_ring` by completed calls, the four cursors are below `RING_SIZE`,
`p_head = p_tail` and `c_head = c_tail`, `(p_tail - c_tail) mod RING_SIZE` is
the number of completed submits minus the number of completed gets, which is
between 0 and `RING_SIZE - 1`; `ring_submit` proceeds exactly when
`(p_head + 1) mod RING_SIZE ≠ c_tail` and `ring_get` exactly when
`c_head ≠ p_tail`; and a submit leaves every descriptor that is not yet
consumed in its slot. -/
theorem ring_occupancy (N : Nat) (ins outs : List buffer_descriptor) (r : Ring)
    (hN : 0 < N) (hM : N ≤ UINT32_MOD) (h : RingTrace N ins outs r) :
    (r.p_head < N ∧ r.p_tail < N ∧ r.c_head < N ∧ r.c_tail < N) ∧
    r.p_head = r.p_tail ∧ r.c_head = r.c_tail ∧
    outs.length ≤ ins.length ∧
    (r.p_tail + N - r.c_tail) % N = ins.length - outs.length ∧
    ((r.p_tail : Int) - (r.c_tail : Int)) % (N : Int) =
      (ins.length : Int) - (outs.length : Int) ∧
    ins.length - outs.length ≤ N - 1 ∧
    (∀ bd, (ring_submit N r bd).isSome = true ↔ (r.p_head + 1) % N ≠ r.c_tail) ∧
    ((ring_get N r).isSome = true ↔ r.c_head ≠ r.p_tail) ∧
    (∀ bd r2, ring_submit N r bd = some r2 → ∀ i, i < ins.length - outs.length →
      r2.buffer[(r.c_tail + i) % N]? = r.buffer[(r.c_tail + i) % N]? ∧
      r.buffer[(r.c_tail + i) % N]? = ins[outs.length + i]?) := by
  have hinv := ring_trace_inv hN hM h
  have hp : r.p_head < N := by rw [hinv.p_eq]; exact hinv.p_lt
  have hc : r.c_head < N := by rw [hinv.c_eq]; exact hinv.c_lt
  have hnat : (r.p_tail + N - r.c_tail) % N = ins.length - outs.length :=
    walk_distance N r.c_tail _ r.p_tail hinv.c_lt hinv.occ_lt hinv.tail
  have hle := hinv.le
  have hclt := hinv.c_lt
  refine ⟨⟨hp, hinv.p_lt, hc, hinv.c_lt⟩, hinv.p_eq, hinv.c_eq, hinv.le, hnat, ?_, ?_, ?_, ?_,
    ?_⟩
  · have hcast : (((r.p_tail + N - r.c_tail) % N : Nat) : Int) =
        ((ins.length - outs.length : Nat) : Int) := by rw [hnat]
    rw [Int.natCast_mod, Nat.cast_sub (by omega), Nat.cast_sub hle, Nat.cast_add] at hcast
    rw [← hcast]
    have : (r.p_tail : Int) + (N : Int) - (r.c_tail : Int) =
        ((r.p_tail : Int) - (r.c_tail : Int)) + (N : Int) := by ring
    rw [this, Int.add_emod_self]
  · have := hinv.occ_lt
    omega
  · intro bd
    constructor
    · intro hsome
      obtain ⟨r2, hr2⟩ := Option.isSome_iff_exists.mp hsome
      obtain ⟨_, hnext, _⟩ := ring_submit_some N r r2 bd hr2
      rw [next_cursor N r.p_head hM hp] at hnext
      exact hnext
    · intro hnext
      unfold ring_submit
      rw [if_neg (show ¬ N = 0 by omega),
        if_neg (by rw [next_cursor N r.p_head hM hp]; exact hnext),
        if_neg (show ¬ r.buffer.length ≤ r.p_head by rw [hinv.len]; omega),
        if_neg (show ¬ r.p_tail ≠ r.p_head by rw [hinv.p_eq]; simp)]
      rfl
  · constructor
    · intro hsome
      obtain ⟨x, hx⟩ := Option.isSome_iff_exists.mp hsome
      obtain ⟨_, hne, _⟩ := ring_get_some N r x.1 x.2 hx
      exact hne
    · intro hne
      have hlt : r.c_head < r.buffer.length := by rw [hinv.len]; exact hc
      unfold ring_get
      rw [if_neg (show ¬ N = 0 by omega), if_neg hne, List.getElem?_eq_getElem hlt]
      simp only
      rw [if_neg (show ¬ r.c_tail ≠ r.c_head by rw [hinv.c_eq]; simp)]
      rfl
  · intro bd r2 hcall i hi
    have hinv2 := ring_submit_inv hN hM hinv hcall
    have h1 := hinv2.held i (by
      simp only [List.length_append, List.length_singleton]; omega)
    have h2 := hinv.held i hi
    obtain ⟨_, _, _, _, hr2⟩ := ring_submit_some N r r2 bd hcall
    have hct : r2.c_tail = r.c_tail := by rw [hr2]
    rw [hct, List.getElem?_append_left (by omega)] at h1
    exact ⟨by rw [h1, h2], h2⟩

theorem ring_occupancy_witness :
    0 < 4 ∧ 4 ≤ UINT32_MOD ∧
    RingTrace 4 ([] ++ [first_request] ++ [second_request]) ([] ++ [first_request])
      ring_three ∧
    ((ring_three.p_head < 4 ∧ ring_three.p_tail < 4 ∧ ring_three.c_head < 4 ∧
      ring_three.c_tail < 4) ∧
    ring_three.p_head = ring_three.p_tail ∧ ring_three.c_head = ring_three.c_tail ∧
    ([] ++ [first_request]).length ≤ ([] ++ [first_request] ++ [second_request]).length ∧
    (ring_three.p_tail + 4 - ring_three.c_tail) % 4 =
      ([] ++ [first_request] ++ [second_request]).length - ([] ++ [first_request]).length ∧
    ((ring_three.p_tail : Int) - (ring_three.c_tail : Int)) % ((4 : Nat) : Int) =
      (([] ++ [first_request] ++ [second_request]).length : Int) -
        (([] ++ [first_request]).length : Int) ∧
    ([] ++ [first_request] ++ [second_request]).length - ([] ++ [first_request]).length ≤
      4 - 1 ∧
    (∀ bd, (ring_submit 4 ring_three bd).isSome = true ↔
      (ring_three.p_head + 1) % 4 ≠ ring_three.c_tail) ∧
    ((ring_get 4 ring_three).isSome = true ↔ ring_three.c_head ≠ ring_three.p_tail) ∧
    (∀ bd r2, ring_submit 4 ring_three bd = some r2 →
      ∀ i, i < ([] ++ [first_request] ++ [second_request]).length -
          ([] ++ [first_request]).length →
        r2.buffer[(ring_three.c_tail + i) % 4]? =
            ring_three.buffer[(ring_three.c_tail + i) % 4]? ∧
        ring_three.buffer[(ring_three.c_tail + i) % 4]? =
          ([] ++ [first_request] ++ [second_request])[([] ++ [first_request]).length + i]?)) :=
  ⟨by decide, by decide, ring_three_trace,
    ring_occupancy 4 _ _ ring_three (by decide) (by decide) ring_three_trace⟩

/-- The ring of size 4 holds at most 3 descriptors: after three submits a
fourth does not proceed, and the three gets that follow return the three
descriptors in the order of their submission. -/
theorem ring_full_scenario :
    ((((ring_submit 4 (init_ring 4) first_request).bind
        (fun r => ring_submit 4 r second_request)).bind
        (fun r => ring_submit 4 r first_request)).bind
        (fun r => ring_submit 4 r second_request)) = none ∧
    (((((ring_submit 4 (init_ring 4) first_request).bind
        (fun r => ring_submit 4 r second_request)).bind
        (fun r => ring_submit 4 r first_request)).bind
        (fun r => ring_get 4 r)).bind
        (fun x => (ring_get 4 x.1).bind
          (fun y => (ring_get 4 y.1).map (fun z => [x.2, y.2, z.2])))) =
      some [first_request, second_request, first_request] ∧
    ring_get 4 (init_ring 4) = none := by
  decide

/-! ## The `int` range of the capacity -/

/-- An insert of an absent key that triggers a grow of a table whose doubled
capacity exceeds `INT_MAX` publishes its entry, and the grow that follows has
no defined result, whatever the worker order. -/
theorem insert_int_overflow {H : Hash} {s : Server} (h : Inv H s) {k : Nat}
    (hk : k ∉ keys s.table.table) (hover : s.table.capacity < 2 * (s.table.size + 1))
    (hbig : INT_MAX < 2 * s.table.capacity) (garbage : Nat → Option Pair)
    (order : List Nat) (v : Nat) :
    insert H garbage order s k v = none ∧
    ∃ t1, insert_loop s.table k ⟨k, v⟩ s.table.capacity (H.fn k s.table.capacity) =
        some (some t1) ∧
      grow H garbage order { s with table := t1 } = none := by
  obtain ⟨t1, hloop, _, hcap1, hsize1, _⟩ := insert_loop_absent h.table (inv_room h) hk v
  have hgrow : grow H garbage order { s with table := t1 } = none := by
    unfold grow
    split
    · rfl
    · rw [if_pos (show 2 * t1.capacity > INT_MAX by rw [hcap1]; exact hbig)]
  refine ⟨?_, t1, hloop, hgrow⟩
  rw [insert_unfold H garbage order s k v t1 h.idle h.table.cap_pos hloop,
    if_pos (by rw [hcap1, hsize1]; exact (over_load_iff _ _).mpr hover), hgrow]
  rfl

/-- A table of capacity `C` set up for one thread can be filled, without a
grow, with the keys `0 .. n - 1` as long as `2 * n ≤ C`. -/
theorem fill_reachable (H : Hash) (C : Nat) (hC : 0 < C) (hCi : C ≤ INT_MAX) :
    ∀ n, 2 * n ≤ C → ∃ s, Reachable H s ∧ s.table.capacity = C ∧ s.table.size = n ∧
      s.mt_count = 1 ∧ ∀ k, k ∈ keys s.table.table → k < n := by
  intro n
  induction n with
  | zero =>
    intro _
    refine ⟨init_server 1 C, ⟨[], Trace.init 1 C (by decide) hC (by decide) hCi⟩, ?_, rfl, rfl,
      ?_⟩
    · simp only [init_server]
      split <;> omega
    · intro k hk
      simp [init_server, keys, entries_replicate_none] at hk
  | succ n ih =>
    intro hn
    obtain ⟨s, hs, hcap, hsize, hmt, hkeys⟩ := ih (by omega)
    have hk : n ∉ keys s.table.table := fun hmem => Nat.lt_irrefl n (hkeys n hmem)
    have horder : [0].Perm (List.range s.mt_count) := by rw [hmt]; exact List.Perm.refl _
    have hno : ¬ over_load (s.table.size + 1) s.table.capacity = true := by
      rw [over_load_iff, hcap, hsize]; omega
    obtain ⟨t1, s2, hins⟩ := insert_absent (reachable_inv hs) horder hk 0
      (fun h => absurd h hno)
    obtain ⟨log, hlog⟩ := hs
    refine ⟨s2, ⟨_, Trace.insert n 0 [0] SUCCESS s2 hlog horder hins.call⟩, ?_, ?_, ?_, ?_⟩
    · rw [hins.capacity, if_neg hno, hcap]
    · rw [hins.size, hsize]
    · rw [hins.workers, hmt]
    · intro k2 hk2
      obtain ⟨p, hp, hpk⟩ := List.mem_map.mp hk2
      have hp2 := hins.pub_entries.mem_iff.mp (hins.same_entries.mem_iff.mp hp)
      rcases List.mem_cons.mp hp2 with heq | hold
      · rw [← hpk, heq]; exact Nat.lt_succ_self n
      · exact Nat.lt_succ_of_lt (hkeys k2 (List.mem_map.mpr ⟨p, hold, hpk⟩))

/-- There is a reachable state of capacity `2^30` that holds the `2^29` keys
below `2^29`: the next insert of an absent key triggers a grow to `2^31`. -/
theorem int_overflow_state :
    ∃ s, Reachable modHash s ∧ s.table.capacity = 1073741824 ∧ s.table.size = 536870912 ∧
      s.mt_count = 1 ∧ 536870912 ∉ keys s.table.table := by
  obtain ⟨s, hs, hcap, hsize, hmt, hkeys⟩ :=
    fill_reachable modHash 1073741824 (by decide) (by decide) 536870912 (by decide)
  exact ⟨s, hs, hcap, hsize, hmt, fun hmem => Nat.lt_irrefl _ (hkeys _ hmem)⟩

/-- C1, as stated, fails at the end of the `int` range: in a reachable state of
capacity `2^30` and size `2^29`, the insert of the absent 32-bit key `2^29`
triggers a grow whose `2 * capacity` is `2^31`, beyond `INT_MAX`, and does not
return `SUCCESS`: it has no defined result, for any value. -/
theorem insert_fails_beyond_int_range :
    ∃ s, Reachable modHash s ∧ 536870912 ∉ keys s.table.table ∧
      [0].Perm (List.range s.mt_count) ∧
      ∀ v, insert modHash zeroed [0] s 536870912 v = none := by
  obtain ⟨s, hs, hcap, hsize, hmt, hk⟩ := int_overflow_state
  refine ⟨s, hs, hk, by rw [hmt]; exact List.Perm.refl _, fun v => ?_⟩
  exact (insert_int_overflow (reachable_inv hs) hk (by rw [hcap, hsize]; decide)
    (by rw [hcap]; decide) zeroed [0] v).1

/-- C2, as stated, fails at the end of the `int` range: in a reachable state of
capacity `2^30` and size `2^29`, the first `insert(k, v1)` of the absent key
`k = 2^29` does not return `SUCCESS`, for any `v1`. -/
theorem first_insert_fails_beyond_int_range :
    ∃ s, Reachable modHash s ∧ 536870912 ∉ keys s.table.table ∧
      [0].Perm (List.range s.mt_count) ∧
      ∀ v1, ¬ ∃ s2, insert modHash zeroed [0] s 536870912 v1 = some (SUCCESS, s2) := by
  obtain ⟨s, hs, hcap, hsize, hmt, hk⟩ := int_overflow_state
  refine ⟨s, hs, hk, by rw [hmt]; exact List.Perm.refl _, fun v1 => ?_⟩
  rintro ⟨s2, hs2⟩
  rw [(insert_int_overflow (reachable_inv hs) hk (by rw [hcap, hsize]; decide)
    (by rw [hcap]; decide) zeroed [0] v1).1] at hs2
  simp at hs2

/-- C6, as stated, fails at the end of the `int` range: in a reachable state
with capacity `c = 2^30` and size `s = 2^29`, where `2 * (s + 1) > c`, the
insert of an absent key does not leave `size = s + 1` and `capacity = 2 * c`:
it returns no state at all. -/
theorem grow_trigger_fails_beyond_int_range :
    ∃ s, Reachable modHash s ∧ 536870912 ∉ keys s.table.table ∧
      [0].Perm (List.range s.mt_count) ∧
      s.table.capacity < 2 * (s.table.size + 1) ∧
      ∀ v, ¬ ∃ r s2, insert modHash zeroed [0] s 536870912 v = some (r, s2) ∧
        s2.table.size = s.table.size + 1 ∧ s2.table.capacity = 2 * s.table.capacity := by
  obtain ⟨s, hs, hcap, hsize, hmt, hk⟩ := int_overflow_state
  refine ⟨s, hs, hk, by rw [hmt]; exact List.Perm.refl _, by rw [hcap, hsize]; decide,
    fun v => ?_⟩
  rintro ⟨r, s2, hs2, _⟩
  rw [(insert_int_overflow (reachable_inv hs) hk (by rw [hcap, hsize]; decide)
    (by rw [hcap]; decide) zeroed [0] v).1] at hs2
  simp at hs2

theorem deref_slots_getElem? (f : Nat → Pair) (p : List (Option Nat)) (j : Nat) :
    (deref_slots f p)[j]? = (p[j]?).map (Option.map f) := by
  unfold deref_slots
  rw [List.getElem?_map]

theorem deref_slots_some {f : Nat → Pair} {p : List (Option Nat)} {j : Nat} {q : Pair}
    (h : (deref_slots f p)[j]? = some (some q)) : ∃ a, p[j]? = some (some a) ∧ f a = q := by
  rw [deref_slots_getElem?] at h
  cases hp : p[j]? with
  | none => rw [hp] at h; simp at h
  | some slot =>
    rw [hp] at h
    cases slot with
    | none => simp at h
    | some a => exact ⟨a, rfl, by simpa using h⟩

theorem deref_slots_set (f : Nat → Pair) (p : List (Option Nat)) (j a : Nat) :
    deref_slots f (p.set j (some a)) = (deref_slots f p).set j (some (f a)) := by
  unfold deref_slots
  rw [List.map_set]
  rfl

theorem entries_deref_slots (f : Nat → Pair) (p : List (Option Nat)) :
    entries (deref_slots f p) = (p.filterMap id).map f := by
  induction p with
  | nil => rfl
  | cons a rest ih =>
    cases a with
    | none => simpa [entries, deref_slots] using ih
    | some b =>
      have h1 : entries (deref_slots f (some b :: rest)) =
          f b :: entries (deref_slots f rest) := by simp [entries, deref_slots]
      rw [h1, ih]
      simp

theorem migrate_loop_ref_sim (f : Nat → Pair) (nt : List (Option Nat)) (c a : Nat) :
    ∀ (fuel i : Nat), (migrate_loop_ref nt c a fuel i).map (deref_slots f) =
      migrate_loop (deref_slots f nt) c (f a) fuel i := by
  intro fuel
  induction fuel with
  | zero => intro i; rfl
  | succ fuel ih =>
    intro i
    unfold migrate_loop_ref migrate_loop
    rw [deref_slots_getElem?]
    cases nt[i % c]? with
    | none => rfl
    | some slot =>
      cases slot with
      | none => simp [deref_slots_set]
      | some b => exact ih (i % c + 1)

theorem migrate_for_ref_sim (H : Hash) (heap f : Nat → Pair)
    (hkey : ∀ a, (f a).key = (heap a).key) (old : List (Option Nat)) (c : Nat) :
    ∀ (n i : Nat) (nt : List (Option Nat)),
      (migrate_for_ref H heap old c n i nt).map (deref_slots f) =
        migrate_for H (deref_slots f old) c n i (deref_slots f nt) := by
  intro n
  induction n with
  | zero => intro i nt; rfl
  | succ n ih =>
    intro i nt
    unfold migrate_for_ref migrate_for
    rw [deref_slots_getElem?]
    cases old[i]? with
    | none => rfl
    | some slot =>
      cases slot with
      | none => exact ih (i + 1) nt
      | some curr =>
        have hsim := migrate_loop_ref_sim f nt c curr c (H.fn (heap curr).key c)
        simp only [Option.map_some', hkey]
        rw [← hsim]
        cases migrate_loop_ref nt c curr c (H.fn (heap curr).key c) with
        | none => rfl
        | some nt2 => exact ih (i + 1) nt2

theorem run_migrators_ref_sim (H : Hash) (heap f : Nat → Pair)
    (hkey : ∀ a, (f a).key = (heap a).key) (old : List (Option Nat)) (t : HashTable)
    (W : Nat) :
    ∀ (order : List Nat) (nt : List (Option Nat)),
      (run_migrators_ref H heap old t W order nt).map (deref_slots f) =
        run_migrators H { table := deref_slots f old, size := t.size, capacity := t.capacity }
          W order (deref_slots f nt) := by
  intro order
  induction order with
  | nil => intro nt; rfl
  | cons i rest ih =>
    intro nt
    unfold run_migrators_ref run_migrators
    have hstep : (migrateTable_ref H heap old (migrator_args t W i) nt).map (deref_slots f) =
        migrateTable H { table := deref_slots f old, size := t.size, capacity := t.capacity }
          (migrator_args { table := deref_slots f old, size := t.size, capacity := t.capacity }
            W i) (deref_slots f nt) := by
      unfold migrateTable_ref migrateTable
      have hargs : migrator_args
          { table := deref_slots f old, size := t.size, capacity := t.capacity } W i =
          migrator_args t W i := rfl
      rw [hargs]
      split
      · rfl
      · exact migrate_for_ref_sim H heap f hkey old _ _ _ nt
    rw [← hstep]
    cases migrateTable_ref H heap old (migrator_args t W i) nt with
    | none => rfl
    | some nt2 => exact ih nt2

theorem probeChain_deref_slots (H : Hash) (f g : Nat → Pair)
    (hkey : ∀ a, (f a).key = (g a).key) (p : List (Option Nat)) (c : Nat)
    (h : ProbeChain H (deref_slots f p) c) : ProbeChain H (deref_slots g p) c := by
  intro j q hq
  obtain ⟨a, hpa, hga⟩ := deref_slots_some hq
  have hfa : (deref_slots f p)[j]? = some (some (f a)) := by
    rw [deref_slots_getElem?, hpa]; rfl
  obtain ⟨d, hd, hdj, hch⟩ := h j (f a) hfa
  have hqk : q.key = (f a).key := by rw [← hga, hkey]
  rw [hqk]
  refine ⟨d, hd, hdj, ?_⟩
  intro e he
  obtain ⟨r, hr, hrk⟩ := hch e he
  obtain ⟨b, hpb, hfb⟩ := deref_slots_some hr
  refine ⟨g b, ?_, ?_⟩
  · rw [deref_slots_getElem?, hpb]; rfl
  · rw [← hkey, hfb]; exact hrk

/-- A grow re-homes the references of the old array: run on the slots
themselves, the workers (which allocate nothing) fill the new array with
exactly the pointers of the old array, each once, and what they point to is the
new array of the grown table. -/
theorem grow_rehomes_references (H : Hash) (s1 s2 : Server) (order : List Nat)
    (ht : TableInv H s1.table) (hW : 0 < s1.mt_count)
    (horder : order.Perm (List.range s1.mt_count))
    (hgrow : grow H zeroed order s1 = some s2) (heap : Nat → Pair)
    (old_refs : List (Option Nat)) (hview : deref_slots heap old_refs = s1.table.table) :
    ∃ new_refs,
      run_migrators_ref H heap old_refs s1.table s1.mt_count order
        (List.replicate (2 * s1.table.capacity) none) = some new_refs ∧
      deref_slots heap new_refs = s2.table.table ∧
      (new_refs.filterMap id).Perm (old_refs.filterMap id) := by
  have hint := grow_some_int H zeroed order s1 s2 hgrow
  have hfresh : ∀ f : Nat → Pair, deref_slots f (List.replicate (2 * s1.table.capacity) none) =
      malloc_slots zeroed (2 * s1.table.capacity) := by
    intro f
    rw [malloc_slots_zeroed]
    simp [deref_slots]
  -- what the moved pointers point to
  have hsim := run_migrators_ref_sim H heap heap (fun _ => rfl) old_refs s1.table s1.mt_count
    order (List.replicate (2 * s1.table.capacity) none)
  rw [hview, hfresh, grow_some_migrators H zeroed order s1 s2 hgrow] at hsim
  obtain ⟨new_refs, hrun, hderef⟩ := Option.map_eq_some'.mp hsim
  refine ⟨new_refs, hrun, hderef, ?_⟩
  -- the pointers themselves, through entries tagged with their address
  have hsim2 := run_migrators_ref_sim H heap (tagged heap) (fun _ => rfl) old_refs s1.table
    s1.mt_count order (List.replicate (2 * s1.table.capacity) none)
  rw [hrun, hfresh] at hsim2
  have hlen : (deref_slots (tagged heap) old_refs).length = s1.table.capacity := by
    rw [← ht.len, ← hview]
    simp [deref_slots]
  have hcount : s1.table.size = (entries (deref_slots (tagged heap) old_refs)).length := by
    rw [ht.count, ← hview, entries_deref_slots, entries_deref_slots]
    simp
  have htag : TableInv H
      { table := deref_slots (tagged heap) old_refs, size := s1.table.size,
        capacity := s1.table.capacity } :=
    ⟨hlen, ht.cap_pos,
      probeChain_deref_slots H heap (tagged heap) (fun _ => rfl) old_refs _
        (by rw [hview]; exact ht.chain),
      hcount⟩
  obtain ⟨nt, hgrow2, _, hperm⟩ := grow_spec H
    { s1 with table :=
      { table := deref_slots (tagged heap) old_refs, size := s1.table.size,
        capacity := s1.table.capacity } } order htag hW horder hint
  have hrun2 := grow_some_migrators H zeroed order _ _ hgrow2
  rw [← hsim2] at hrun2
  simp only [Option.map_some', Option.some.injEq] at hrun2
  rw [← hrun2, entries_deref_slots, entries_deref_slots] at hperm
  have hval := hperm.map Pair.val
  have hid : ∀ l : List Nat, (l.map (tagged heap)).map Pair.val = l := by
    intro l
    induction l with
    | nil => rfl
    | cons a rest ih => simp only [List.map_cons, ih]; rfl
  rw [hid, hid] at hval
  exact hval

/-- In an array whose slots are all occupied, the probe loop of `get` for a key
it does not hold never returns, whatever the fuel. -/
theorem get_loop_full (tbl : List (Option Pair)) (c k : Nat) (hc : 0 < c)
    (hfull : ∀ j, j < c → ∃ p, tbl[j]? = some (some p)) (hk : k ∉ keys tbl) :
    ∀ (fuel i : Nat), get_loop tbl c k fuel i = none := by
  intro fuel
  induction fuel with
  | zero => intro i; rfl
  | succ fuel ih =>
    intro i
    obtain ⟨p, hp⟩ := hfull (i % c) (Nat.mod_lt i hc)
    have hne : p.key ≠ k := fun heq => hk ((mem_keys_iff _ _).mpr ⟨_, p, hp, heq⟩)
    unfold get_loop
    rw [hp]
    simp only
    rw [if_neg hne]
    exact ih _

theorem all_occupied (tbl : List (Option Pair)) (h : (entries tbl).length = tbl.length) :
    ∀ j, j < tbl.length → ∃ p, tbl[j]? = some (some p) := by
  induction tbl with
  | nil => intro j hj; simp at hj
  | cons a rest ih =>
    cases a with
    | none =>
      have h1 : entries (none :: rest) = entries rest := by simp [entries]
      have h2 := entries_length_le rest
      rw [h1] at h
      simp only [List.length_cons] at h
      omega
    | some q =>
      have h1 : entries (some q :: rest) = q :: entries rest := by simp [entries]
      rw [h1] at h
      simp only [List.length_cons, Nat.add_right_cancel_iff] at h
      intro j hj
      cases j with
      | zero => exact ⟨q, by simp⟩
      | succ j =>
        simp only [List.length_cons] at hj
        obtain ⟨p, hp⟩ := ih h j (by omega)
        exact ⟨p, by simpa using hp⟩

/-! ## What a grow preserves -/

/-- C7, amended: after a grow completes, the new backing array holds exactly
the same Entry references as the old one (none lost, none duplicated, none
newly allocated): run on the slots themselves, the workers fill the new array
with the pointers of the old array, each once, and allocate nothing.  Every
key the pre-grow table, with the triggering entry included, holds is looked up
with its value before and after the grow, and every key it does not hold gives
0 after the grow; so whenever `get(k)` returns on the pre-grow table, `get(k)`
on the post-grow table returns the same result, which is so for every key when
the pre-grow array has an empty slot.  When the triggering entry filled the
pre-grow array, which needs a capacity of at most 2, `get` of a key it does
not hold does not return on the pre-grow table. -/
theorem grow_preserves_mapping (H : Hash) (s : Server) (k v r : Nat) (order : List Nat)
    (s2 : Server) (hs : Reachable H s) (horder : order.Perm (List.range s.mt_count))
    (hcall : insert H zeroed order s k v = some (r, s2))
    (hgrew : s2.table.capacity ≠ s.table.capacity) :
    ∃ t1,
      insert_loop s.table k ⟨k, v⟩ s.table.capacity (H.fn k s.table.capacity) =
        some (some t1) ∧
      grow H zeroed order { s with table := t1 } = some s2 ∧
      s2.table.capacity = 2 * t1.capacity ∧
      (∀ (heap : Nat → Pair) (old_refs : List (Option Nat)),
        deref_slots heap old_refs = t1.table →
        ∃ new_refs,
          run_migrators_ref H heap old_refs t1 s.mt_count order
            (List.replicate (2 * t1.capacity) none) = some new_refs ∧
          deref_slots heap new_refs = s2.table.table ∧
          (new_refs.filterMap id).Perm (old_refs.filterMap id)) ∧
      (entries s2.table.table).Perm (entries t1.table) ∧
      (∀ p, p ∈ entries t1.table →
        get H { s with table := t1 } p.key = some p.val ∧ get H s2 p.key = some p.val) ∧
      (∀ k2, k2 ∉ keys t1.table → get H s2 k2 = some FAILURE) ∧
      (∀ k2 r2, get H { s with table := t1 } k2 = some r2 → get H s2 k2 = some r2) ∧
      (t1.size < t1.capacity → ∀ k2, get H s2 k2 = get H { s with table := t1 } k2) ∧
      (t1.size = t1.capacity →
        t1.capacity ≤ 2 ∧ ∀ k2, k2 ∉ keys t1.table → get H { s with table := t1 } k2 = none) := by
  have hinv := reachable_inv hs
  rcases insert_step hinv horder hcall with ⟨_, _, h2⟩ | ⟨hk, _, t1, hins⟩
  · rw [h2] at hgrew
    exact absurd rfl hgrew
  have hover : over_load (s.table.size + 1) s.table.capacity = true := by
    by_contra hno
    have hcap := hins.capacity
    rw [if_neg hno] at hcap
    exact hgrew hcap
  have hgrow := hins.grown hover
  have hcap : s2.table.capacity = 2 * t1.capacity := by
    rw [hins.capacity, if_pos hover, hins.pub_capacity]
  have hpre : TableInv H ({ s with table := t1 } : Server).table := hins.published
  have hstored : ∀ p, p ∈ entries t1.table →
      get H { s with table := t1 } p.key = some p.val ∧ get H s2 p.key = some p.val :=
    fun p hp => ⟨get_of_mem hpre hp, get_present hins.inv (hins.same_entries.mem_iff.mpr hp)⟩
  have habsent : ∀ k2, k2 ∉ keys t1.table → get H s2 k2 = some FAILURE :=
    fun k2 hk2 =>
      get_absent hins.inv (fun hmem => hk2 ((keys_perm hins.same_entries k2).mp hmem))
  refine ⟨t1, hins.loop, hgrow, hcap, ?_, hins.same_entries, hstored, habsent, ?_, ?_, ?_⟩
  · intro heap old_refs hview
    exact grow_rehomes_references H { s with table := t1 } s2 order hpre hinv.workers horder
      hgrow heap old_refs hview
  · intro k2 r2 hr
    by_cases hk2 : k2 ∈ keys t1.table
    · obtain ⟨p, hp, hpk⟩ := List.mem_map.mp hk2
      obtain ⟨h1, h2⟩ := hstored p hp
      rw [hpk] at h1 h2
      rw [h2, ← h1, hr]
    · have hr2 : r2 = FAILURE := by
        unfold get at hr
        split at hr
        · simp at hr
        · exact get_loop_absent_result _ _ _ hk2 _ _ r2 hr
      rw [habsent k2 hk2, hr2]
  · intro hroom k2
    by_cases hk2 : k2 ∈ keys t1.table
    · obtain ⟨p, hp, hpk⟩ := List.mem_map.mp hk2
      obtain ⟨h1, h2⟩ := hstored p hp
      rw [hpk] at h1 h2
      rw [h1, h2]
    · rw [habsent k2 hk2]
      exact (get_of_not_mem hpre hroom hk2).symm
  · intro hfull
    have hload := hinv.load
    have hsize := hins.pub_size
    have hpc := hins.pub_capacity
    refine ⟨by omega, fun k2 hk2 => ?_⟩
    have hocc := all_occupied t1.table (by rw [← hins.published.count, hins.published.len, hfull])
    unfold get
    rw [if_neg (show ¬ ({ s with table := t1 } : Server).table.capacity = 0 by
      have := hins.published.cap_pos; exact Nat.pos_iff_ne_zero.mp this)]
    exact get_loop_full t1.table t1.capacity k2 hins.published.cap_pos
      (fun j hj => hocc j (by rw [hins.published.len]; exact hj)) hk2 _ _

theorem grow_preserves_mapping_witness :
    Reachable modHash two_keys_state ∧
    [1, 0].Perm (List.range two_keys_state.mt_count) ∧
    insert modHash zeroed [1, 0] two_keys_state 3 33 = some (SUCCESS, three_keys_state) ∧
    three_keys_state.table.capacity ≠ two_keys_state.table.capacity ∧
    ∃ t1,
      insert_loop two_keys_state.table 3 ⟨3, 33⟩ two_keys_state.table.capacity
        (modHash.fn 3 two_keys_state.table.capacity) = some (some t1) ∧
      grow modHash zeroed [1, 0] { two_keys_state with table := t1 } =
        some three_keys_state ∧
      three_keys_state.table.capacity = 2 * t1.capacity ∧
      (∀ (heap : Nat → Pair) (old_refs : List (Option Nat)),
        deref_slots heap old_refs = t1.table →
        ∃ new_refs,
          run_migrators_ref modHash heap old_refs t1 two_keys_state.mt_count [1, 0]
            (List.replicate (2 * t1.capacity) none) = some new_refs ∧
          deref_slots heap new_refs = three_keys_state.table.table ∧
          (new_refs.filterMap id).Perm (old_refs.filterMap id)) ∧
      (entries three_keys_state.table.table).Perm (entries t1.table) ∧
      (∀ p, p ∈ entries t1.table →
        get modHash { two_keys_state with table := t1 } p.key = some p.val ∧
          get modHash three_keys_state p.key = some p.val) ∧
      (∀ k2, k2 ∉ keys t1.table → get modHash three_keys_state k2 = some FAILURE) ∧
      (∀ k2 r2, get modHash { two_keys_state with table := t1 } k2 = some r2 →
        get modHash three_keys_state k2 = some r2) ∧
      (t1.size < t1.capacity →
        ∀ k2, get modHash three_keys_state k2 =
          get modHash { two_keys_state with table := t1 } k2) ∧
      (t1.size = t1.capacity →
        t1.capacity ≤ 2 ∧
          ∀ k2, k2 ∉ keys t1.table →
            get modHash { two_keys_state with table := t1 } k2 = none) :=
  ⟨two_keys_state_reachable, by decide, by decide, by decide,
    grow_preserves_mapping modHash two_keys_state 3 33 SUCCESS [1, 0] three_keys_state
      two_keys_state_reachable (by decide) (by decide) (by decide)⟩

/-- The references of a grow, evaluated: with the `Pair` objects of the keys
10 and 20 at the addresses 700 and 701, the grow of the full table of capacity
2 moves these two addresses into the new array of 4 slots. -/
theorem grow_references_scenario :
    deref_slots (fun a => if a = 700 then ⟨10, 1⟩ else ⟨20, 2⟩) [some 700, some 701] =
      full_table.table ∧
    run_migrators_ref modHash (fun a => if a = 700 then ⟨10, 1⟩ else ⟨20, 2⟩)
      [some 700, some 701] full_table 1 [0] (List.replicate (2 * full_table.capacity) none) =
      some [some 701, none, some 700, none] ∧
    deref_slots (fun a => if a = 700 then ⟨10, 1⟩ else ⟨20, 2⟩)
      [some 701, none, some 700, none] = regrown_state.table.table := by
  decide

theorem store_byte_spec (mem : List Nat) (a x : Nat) (h : a < mem.length) :
    ∃ m2, store_byte mem a x = some m2 ∧ m2.length = mem.length ∧
      m2[a]? = some (x % 256) ∧ ∀ b, b ≠ a → m2[b]? = mem[b]? := by
  refine ⟨mem.set a (x % 256), by unfold store_byte; rw [if_pos h], by simp, ?_, ?_⟩
  · rw [List.getElem?_set_self h]
  · intro b hb
    rw [List.getElem?_set_ne (Ne.symm hb)]

theorem store_word_spec (mem : List Nat) (a x : Nat) (h : a + 4 ≤ mem.length) :
    ∃ m2, store_word mem a x = some m2 ∧ m2.length = mem.length ∧
      load_word m2 a = some (x % UINT32_MOD) ∧
      ∀ b, (b < a ∨ a + 4 ≤ b) → m2[b]? = mem[b]? := by
  refine ⟨_, by unfold store_word; rw [if_pos h], by simp, ?_, ?_⟩
  · have h0 : a < mem.length := by omega
    have h1 : a + 1 < mem.length := by omega
    have h2 : a + 2 < mem.length := by omega
    have h3 : a + 3 < mem.length := by omega
    unfold load_word
    simp only [List.getElem?_set, List.length_set, h0, h1, h2, h3, if_true,
      Nat.add_right_cancel_iff, Nat.reduceEqDiff, if_false, add_right_eq_self,
      Nat.add_eq_left, self_eq_add_right, OfNat.ofNat_ne_zero, OfNat.zero_ne_ofNat,
      one_ne_zero, zero_ne_one]
    simp only [UINT32_MOD, Option.some.injEq]
    omega
  · intro b hb
    rw [List.getElem?_set_ne (by omega), List.getElem?_set_ne (by omega),
      List.getElem?_set_ne (by omega), List.getElem?_set_ne (by omega)]

theorem load_word_congr (m m2 : List Nat) (a : Nat)
    (h : ∀ b, a ≤ b → b < a + 4 → m2[b]? = m[b]?) : load_word m2 a = load_word m a := by
  unfold load_word
  rw [h a (by omega) (by omega), h (a + 1) (by omega) (by omega),
    h (a + 2) (by omega) (by omega), h (a + 3) (by omega) (by omega)]

/-- C14, as stated, fails for a descriptor whose `res_off` points outside the
mapping, and at the end of the `int` range.  With a mapping of 32 bytes and
`res_off = 64`, the stores of a `PUT` and of a `GET` fall outside the shared
memory, which the source does not check, and have no defined result.  And in a
reachable state of capacity `2^30` and size `2^29`, the `insert` of a `PUT` of
the absent key `2^29` does not return, so `ready` is never stored. -/
theorem dispatcher_step_fails :
    Reachable modHash (init_server 1 4) ∧
    serve modHash zeroed [0] ⟨PUT, 5, 42, 64, 0⟩ (init_server 1 4) (List.replicate 32 0) =
      none ∧
    serve modHash zeroed [0] ⟨GET, 5, 0, 64, 0⟩ (init_server 1 4) (List.replicate 32 0) =
      none ∧
    ∃ s, Reachable modHash s ∧ [0].Perm (List.range s.mt_count) ∧
      ∀ v off mem, serve modHash zeroed [0] ⟨PUT, 536870912, v, off, 0⟩ s mem = none := by
  refine ⟨⟨[], Trace.init 1 4 (by decide) (by decide) (by decide) (by decide)⟩, by decide,
    by decide, ?_⟩
  obtain ⟨s, hs, hcap, hsize, hmt, hk⟩ := int_overflow_state
  refine ⟨s, hs, by rw [hmt]; exact List.Perm.refl _, fun v off mem => ?_⟩
  have hnone := (insert_int_overflow (reachable_inv hs) hk (by rw [hcap, hsize]; decide)
    (by rw [hcap]; decide) zeroed [0] v).1
  unfold serve server_thread
  simp only [PUT, GET, hnone]
  rfl

/-- C14, amended (dispatcher step): one iteration of `server_thread` for a
descriptor `d` whose response record lies inside the shared mapping, on a
reachable table.  For `GET` it leaves the table as it is, stores `get(d.k)` as
a 32-bit word into the `v` of the record at `d.res_off` and then 1 into its
`ready`.  For `PUT`, when a grow triggered by the insert stays in the `int`
range, it applies `insert(d.k, d.v)` to the table and stores 1 into `ready`,
leaving `v`.  In both cases no byte of the shared memory other than those of
that `v` (`GET` only) and that `ready` is changed. -/
theorem dispatcher_step (H : Hash) (order : List Nat) (d : buffer_descriptor) (s : Server)
    (mem : List Nat) (hs : Reachable H s) (horder : order.Perm (List.range s.mt_count))
    (hin : d.res_off + READY_OFFSET < mem.length) :
    (d.req_type = GET → ∃ ret mem2, get H s d.k = some ret ∧
      server_thread H zeroed order d s =
        some (s, [Store.word (d.res_off + V_OFFSET) ret,
          Store.byte (d.res_off + READY_OFFSET) 1]) ∧
      serve H zeroed order d s mem = some (s, mem2) ∧
      mem2.length = mem.length ∧
      load_word mem2 (d.res_off + V_OFFSET) = some (ret % UINT32_MOD) ∧
      mem2[d.res_off + READY_OFFSET]? = some 1 ∧
      ∀ a, (a < d.res_off + V_OFFSET ∨ d.res_off + V_OFFSET + 4 ≤ a) →
        a ≠ d.res_off + READY_OFFSET → mem2[a]? = mem[a]?) ∧
    (d.req_type = PUT →
      (s.table.capacity < 2 * (s.table.size + 1) → 2 * s.table.capacity ≤ INT_MAX) →
      ∃ r s2 mem2, insert H zeroed order s d.k d.v = some (r, s2) ∧
        server_thread H zeroed order d s =
          some (s2, [Store.byte (d.res_off + READY_OFFSET) 1]) ∧
        serve H zeroed order d s mem = some (s2, mem2) ∧
        mem2.length = mem.length ∧
        mem2[d.res_off + READY_OFFSET]? = some 1 ∧
        (∀ a, a ≠ d.res_off + READY_OFFSET → mem2[a]? = mem[a]?) ∧
        load_word mem2 (d.res_off + V_OFFSET) = load_word mem (d.res_off + V_OFFSET)) := by
  have hinv := reachable_inv hs
  have hro : READY_OFFSET = 16 := rfl
  have hvo : V_OFFSET = 8 := rfl
  constructor
  · intro hget
    obtain ⟨ret, hret⟩ : ∃ ret, get H s d.k = some ret := by
      by_cases hk : d.k ∈ keys s.table.table
      · obtain ⟨p, hp, hpk⟩ := List.mem_map.mp hk
        exact ⟨p.val, by rw [← hpk]; exact get_present hinv hp⟩
      · exact ⟨FAILURE, get_absent hinv hk⟩
    have hthread : server_thread H zeroed order d s =
        some (s, [Store.word (d.res_off + V_OFFSET) ret,
          Store.byte (d.res_off + READY_OFFSET) 1]) := by
      unfold server_thread
      rw [if_pos hget, hret]
    obtain ⟨m1, hm1, hlen1, hload1, hframe1⟩ :=
      store_word_spec mem (d.res_off + V_OFFSET) ret (by omega)
    obtain ⟨m2, hm2, hlen2, hready2, hframe2⟩ :=
      store_byte_spec m1 (d.res_off + READY_OFFSET) 1 (by omega)
    refine ⟨ret, m2, hret, hthread, ?_, by rw [hlen2, hlen1], ?_, hready2, ?_⟩
    · unfold serve
      rw [hthread]
      simp only [run_stores, run_store, hm1, hm2]
    · rw [← hload1]
      exact load_word_congr m1 m2 _ (fun b _ _ => hframe2 b (by omega))
    · intro a ha hne
      rw [hframe2 a hne, hframe1 a ha]
  · intro hput hint
    obtain ⟨r, s2, hcall⟩ : ∃ r s2, insert H zeroed order s d.k d.v = some (r, s2) := by
      by_cases hk : d.k ∈ keys s.table.table
      · exact ⟨FAILURE, s, insert_present hinv hk zeroed order d.v⟩
      · obtain ⟨t1, s2, hins⟩ := insert_absent hinv horder hk d.v
          (fun h => hint ((over_load_iff _ _).mp h))
        exact ⟨SUCCESS, s2, hins.call⟩
    have hthread : server_thread H zeroed order d s =
        some (s2, [Store.byte (d.res_off + READY_OFFSET) 1]) := by
      unfold server_thread
      rw [if_neg (by rw [hput]; decide), if_pos hput, hcall]
    obtain ⟨m2, hm2, hlen2, hready2, hframe2⟩ :=
      store_byte_spec mem (d.res_off + READY_OFFSET) 1 hin
    refine ⟨r, s2, m2, hcall, hthread, ?_, hlen2, hready2, hframe2, ?_⟩
    · unfold serve
      rw [hthread]
      simp only [run_stores, run_store, hm2]
    · exact load_word_congr mem m2 _ (fun b _ _ => hframe2 b (by omega))

theorem dispatcher_step_witness :
    Reachable modHash (init_server 1 4) ∧
    [0].Perm (List.range (init_server 1 4).mt_count) ∧
    (⟨PUT, 5, 42, 20, 0⟩ : buffer_descriptor).res_off + READY_OFFSET <
      (List.replicate 40 0).length ∧
    ∃ r s2 mem2, insert modHash zeroed [0] (init_server 1 4) 5 42 = some (r, s2) ∧
      server_thread modHash zeroed [0] ⟨PUT, 5, 42, 20, 0⟩ (init_server 1 4) =
        some (s2, [Store.byte (20 + READY_OFFSET) 1]) ∧
      serve modHash zeroed [0] ⟨PUT, 5, 42, 20, 0⟩ (init_server 1 4) (List.replicate 40 0) =
        some (s2, mem2) ∧
      mem2.length = (List.replicate 40 0).length ∧
      mem2[20 + READY_OFFSET]? = some 1 ∧
      (∀ a, a ≠ 20 + READY_OFFSET → mem2[a]? = (List.replicate 40 0)[a]?) ∧
      load_word mem2 (20 + V_OFFSET) = load_word (List.replicate 40 0) (20 + V_OFFSET) :=
  have hr : Reachable modHash (init_server 1 4) :=
    ⟨[], Trace.init 1 4 (by decide) (by decide) (by decide) (by decide)⟩
  ⟨hr, by decide, by decide,
    (dispatcher_step modHash [0] ⟨PUT, 5, 42, 20, 0⟩ (init_server 1 4) (List.replicate 40 0)
      hr (by decide) (by decide)).2 rfl (by decide)⟩

/-- The scenario of the dispatcher, evaluated on a zeroed mapping of 40 bytes:
`PUT` of key 5 and value 42 with the response record at offset 20 ends with
`ready = 1` and `v = 0` there, and a `GET` of key 5 afterwards, with the
response record at offset 0, stores the word 42 and then the byte 1. -/
theorem dispatcher_put_scenario :
    (serve modHash zeroed [0] ⟨PUT, 5, 42, 20, 0⟩ (init_server 1 4)
        (List.replicate 40 0)).map
        (fun x => (x.2[20 + READY_OFFSET]?, load_word x.2 (20 + V_OFFSET))) =
      some (some 1, some 0) ∧
    ((serve modHash zeroed [0] ⟨PUT, 5, 42, 20, 0⟩ (init_server 1 4)
        (List.replicate 40 0)).bind
        (fun x => server_thread modHash zeroed [0] ⟨GET, 5, 0, 0, 0⟩ x.1)).map
        (fun x => x.2) =
      some [Store.word (0 + V_OFFSET) 42, Store.byte (0 + READY_OFFSET) 1] ∧
    ((serve modHash zeroed [0] ⟨PUT, 5, 42, 20, 0⟩ (init_server 1 4)
        (List.replicate 40 0)).bind
        (fun x => serve modHash zeroed [0] ⟨GET, 5, 0, 0, 0⟩ x.1 x.2)).map
        (fun x => (x.2[0 + READY_OFFSET]?, load_word x.2 (0 + V_OFFSET))) =
      some (some 1, some 42) := by
  decide

end KVStore
